import Mathlib

/-!
Shallow embedding of the comment-stripping engine of the `nocomms` repository.

Documents are modelled as lists of Unicode scalars (`List Char`), mirroring the
Go code's `[]rune(content)` views.  Go's `strings.Index` returns a byte offset
that the source then uses as a rune offset; the embedding uses rune offsets
throughout, which coincides with the source on ASCII data (every concrete input
used below is ASCII, and the line-structure results proved universally do not
depend on the offset unit).
-/

/-! ## Generic string helpers -/

/-- Does `pat` occur at the very start of `l`? -/
def leadsWith : List Char → List Char → Bool
  | [], _ => true
  | _ :: _, [] => false
  | p :: ps, c :: cs => p == c && leadsWith ps cs

/-- `strings.Index(l, pat)` on rune lists: index of the first occurrence of
`pat` in `l`, or `none` (the source's `-1`). -/
def idxOfSub (pat : List Char) : List Char → Option Nat
  | [] => if pat.isEmpty then some 0 else none
  | c :: rest =>
    if leadsWith pat (c :: rest) then some 0
    else (idxOfSub pat rest).map (· + 1)

/-- Number of bytes of a rune in UTF-8 (Go's `utf8.RuneLen` on valid runes).
Several scanners of the source take a byte offset returned by `strings.Index`
and use it in rune units; the embedding computes the byte offset explicitly
with this function wherever the source does that. -/
def runeLen (c : Char) : Nat :=
  if c.toNat ≤ 0x7F then 1
  else if c.toNat ≤ 0x7FF then 2
  else if c.toNat ≤ 0xFFFF then 3
  else 4

/-- Number of UTF-8 bytes of a rune sequence (`len(string(runes))` in Go). -/
def utf8Len (l : List Char) : Nat := (l.map runeLen).sum

/-- The character set of `strings.TrimRight(s, " \t")`. -/
def isSpaceTab (c : Char) : Bool := c == ' ' || c == '\t'

/-- `strings.TrimRight(s, " \t")`: drop trailing spaces and tabs. -/
def trimRightST (l : List Char) : List Char :=
  (l.reverse.dropWhile isSpaceTab).reverse

/-- ASCII part of Go's `unicode.IsSpace`, used by `strings.TrimSpace`. -/
def isGoSpace (c : Char) : Bool :=
  c == ' ' || c == '\t' || c == '\n' || c == '\x0b' || c == '\x0c' || c == '\x0d'

/-- `strings.TrimSpace` (ASCII fragment): trim leading and trailing space. -/
def trimSpaceGo (l : List Char) : List Char :=
  ((l.dropWhile isGoSpace).reverse.dropWhile isGoSpace).reverse

/-- `strings.Split(content, "\n")`. -/
def splitLines : List Char → List (List Char)
  | [] => [[]]
  | c :: rest =>
    if c = '\n' then [] :: splitLines rest
    else
      match splitLines rest with
      | [] => [[c]]
      | l :: ls => (c :: l) :: ls

/-- Number of newline separators in a text. -/
def nlCount (l : List Char) : Nat := l.count '\n'

/-- Fold a per-line step over the split lines of a document, mirroring the
`strings.Builder` loops of the source: each step returns the text it emits for
the line, whether it already wrote its own unconditional `"\n"` (the source's
`result.WriteString("\n"); continue` branches), and the cross-line state for
the next line.  The usual guarded separator (`if i < len(lines)-1`) is written
otherwise. -/
def driveLines {σ : Type} (f : σ → List Char → List Char × Bool × σ) :
    σ → List (List Char) → List Char
  | _, [] => []
  | s, line :: rest =>
    let step := f s line
    step.1 ++ (if step.2.1 then ['\n'] else if rest.isEmpty then [] else ['\n']) ++
      driveLines f step.2.2 rest

/-! ## YAML remover (`removeYAMLComments`, comments_yaml.go) -/

/-- Per-character scan of one YAML line with state `(inString, stringDelim,
escaped)`; a `#` outside a string discards the rest of the line. -/
def yamlScan : Bool → Char → Bool → List Char → List Char
  | _, _, _, [] => []
  | inString, delim, escaped, c :: rest =>
    if escaped then c :: yamlScan inString delim false rest
    else if c == '\\' && inString && delim == '"' then
      c :: yamlScan inString delim true rest
    else if inString && delim == '\'' && c == '\'' && rest.headD ' ' == '\'' then
      c :: '\'' :: yamlScan inString delim false rest.tail
    else if (c == '"' || c == '\'') && !inString then c :: yamlScan true c false rest
    else if inString && c == delim then c :: yamlScan false (Char.ofNat 0) false rest
    else if inString then c :: yamlScan inString delim false rest
    else if c == '#' then []
    else c :: yamlScan inString delim false rest
termination_by _ _ _ l => l.length
decreasing_by
  all_goals simp_all [List.length_tail]
  all_goals omega

/-- `removeYAMLComments`: scan each line independently and trim trailing
space/tab from the cleaned line. -/
def removeYAMLComments (content : List Char) : List Char :=
  driveLines
    (fun _ line => (trimRightST (yamlScan false (Char.ofNat 0) false line), false, ()))
    () (splitLines content)

/-! ## Newline normalizer (`collapseExcessiveNewlines`) -/

/-- RE2's `\s` character class: `[\t\n\f\r ]`. -/
def isRegexWs (c : Char) : Bool :=
  c == '\t' || c == '\n' || c == '\x0c' || c == '\x0d' || c == ' '

/-- Largest index `j` with `j ≥ 1` (counting from the start index `i`) whose
character is a newline; used for the greedy extent of `\s+` in `\n\s+\n`. -/
def lastNlAux : Nat → Option Nat → List Char → Option Nat
  | _, best, [] => best
  | i, best, c :: rest =>
    lastNlAux (i + 1) (if c == '\n' && 1 ≤ i then some i else best) rest

/-- Length of the leftmost-greedy match of the RE2 pattern `\n\s+\n` at the
head of `l`, if any: a newline, then a maximal run of whitespace whose last
newline (at offset ≥ 1 into the run) ends the match. -/
def matchLenAt (l : List Char) : Option Nat :=
  match l with
  | '\n' :: rest =>
    match lastNlAux 0 none (rest.takeWhile isRegexWs) with
    | some j => some (j + 2)
    | none => none
  | _ => none

theorem matchLenAt_ge (l : List Char) (k : Nat) (h : matchLenAt l = some k) : 2 ≤ k := by
  unfold matchLenAt at h
  split at h
  · split at h
    · simp_all; omega
    · simp_all
  · simp_all

theorem lastNlAux_lt (run : List Char) : ∀ (i : Nat) (best : Option Nat) (j : Nat),
    (∀ jb, best = some jb → jb < i) → lastNlAux i best run = some j → j < i + run.length := by
  induction run with
  | nil =>
      intro i best j hb h
      simp only [lastNlAux] at h
      have := hb j h
      omega
  | cons c rest ih =>
      intro i best j hb h
      simp only [lastNlAux] at h
      have hb' : ∀ jb, (if c == '\n' && 1 ≤ i then some i else best) = some jb → jb < i + 1 := by
        intro jb hjb
        split at hjb
        · simp at hjb; omega
        · have := hb jb hjb; omega
      have := ih (i + 1) _ j hb' h
      simp only [List.length_cons]
      omega

theorem takeWhileLenLe (p : Char → Bool) (l : List Char) :
    (l.takeWhile p).length ≤ l.length := by
  induction l with
  | nil => simp [List.takeWhile]
  | cons c rest ih =>
      simp only [List.takeWhile]
      split
      · simp only [List.length_cons]; omega
      · simp

theorem matchLenAt_le (l : List Char) (k : Nat) (h : matchLenAt l = some k) :
    k ≤ l.length := by
  cases l with
  | nil => simp [matchLenAt] at h
  | cons c rest =>
      by_cases hc : c = '\n'
      · subst hc
        simp only [matchLenAt] at h
        cases hj : lastNlAux 0 none (rest.takeWhile isRegexWs) with
        | none => rw [hj] at h; simp at h
        | some j =>
            rw [hj] at h
            simp only [Option.some.injEq] at h
            have hlt := lastNlAux_lt _ 0 none j (by simp) hj
            have hrun := takeWhileLenLe isRegexWs rest
            simp only [List.length_cons]
            omega
      · have : matchLenAt (c :: rest) = none := by
          unfold matchLenAt
          split
          · next heq => rw [List.cons.injEq] at heq; exact absurd heq.1 hc
          · rfl
        rw [this] at h
        simp at h

/-- `re.ReplaceAllString(content, "\n")` for the pattern `\n\s+\n`: replace
every non-overlapping leftmost match by a single newline. -/
def reReplaceAll : List Char → List Char
  | [] => []
  | c :: rest =>
    match h : matchLenAt (c :: rest) with
    | some k => '\n' :: reReplaceAll ((c :: rest).drop k)
    | none => c :: reReplaceAll rest
termination_by l => l.length
decreasing_by
  · have := matchLenAt_ge _ _ h
    simp [List.length_drop]
    omega
  · simp

/-- `re.Match(content)` for the pattern `\n\s+\n`. -/
def reHasMatch : List Char → Bool
  | [] => false
  | c :: rest => (matchLenAt (c :: rest)).isSome || reHasMatch rest

theorem reReplaceAll_length_le (l : List Char) : (reReplaceAll l).length ≤ l.length := by
  induction l using reReplaceAll.induct with
  | case1 => simp [reReplaceAll]
  | case2 c rest k h ih =>
      rw [reReplaceAll, h]
      have hk := matchLenAt_ge _ _ h
      simp only [List.length_cons, List.length_drop] at *
      omega
  | case3 c rest h ih =>
      rw [reReplaceAll, h]
      simp only [List.length_cons]
      omega

theorem reReplaceAll_length_lt (l : List Char) (h : reHasMatch l = true) :
    (reReplaceAll l).length < l.length := by
  induction l using reReplaceAll.induct with
  | case1 => simp [reHasMatch] at h
  | case2 c rest k hm ih =>
      rw [reReplaceAll, hm]
      have hk := matchLenAt_ge _ _ hm
      have hk2 := matchLenAt_le _ _ hm
      have hle := reReplaceAll_length_le ((c :: rest).drop k)
      simp only [List.length_cons, List.length_drop] at hk2 hle ⊢
      omega
  | case3 c rest hm ih =>
      rw [reReplaceAll, hm]
      rw [reHasMatch, hm] at h
      simp only [Option.isSome_none, Bool.false_or] at h
      have := ih h
      simp only [List.length_cons]
      omega

/-- `collapseExcessiveNewlines`: iterate `ReplaceAll` until the pattern
`\n\s+\n` no longer matches.  Terminates because each replacement round
strictly shrinks the text. -/
def collapseExcessiveNewlines (content : List Char) : List Char :=
  if h : reHasMatch content = true then
    collapseExcessiveNewlines (reReplaceAll content)
  else content
termination_by content.length
decreasing_by
  exact reReplaceAll_length_lt content h

/-! ## Python remover (`removePythonComments`, comments_go.go part 3) -/

/-- Scan of one Python line in `Normal` state, with per-line string state
`(inString, stringDelim, escaped)`.  Returns the cleaned text and `some delim`
when a triple-quoted string opened without closing on this line (the source
sets `inMultilineString` and breaks). -/
def pyScan : Bool → Char → Bool → List Char → List Char × Option (List Char)
  | _, _, _, [] => ([], none)
  | inString, sd, escaped, c :: rest =>
    if escaped then
      let r := pyScan inString sd false rest
      (c :: r.1, r.2)
    else if c == '\\' && inString then
      let r := pyScan inString sd true rest
      (c :: r.1, r.2)
    else if !inString && 2 ≤ rest.length &&
        ((c == '\'' && rest.take 2 == ['\'', '\'']) ||
         (c == '"' && rest.take 2 == ['"', '"'])) then
      -- triple-quoted string: look for the closing delimiter on the same line
      let delim := [c, c, c]
      match idxOfSub delim (rest.drop 2) with
      | some endIdx =>
          let consumed := 3 + endIdx + 3
          let r := pyScan inString sd false ((c :: rest).drop consumed)
          ((c :: rest).take consumed ++ r.1, r.2)
      | none => (c :: rest, some delim)
    else if (c == '"' || c == '\'') && !inString then
      let r := pyScan true c false rest
      (c :: r.1, r.2)
    else if inString && c == sd then
      let r := pyScan false (Char.ofNat 0) false rest
      (c :: r.1, r.2)
    else if inString then
      let r := pyScan inString sd false rest
      (c :: r.1, r.2)
    else if c == '#' then ([], none)
    else
      let r := pyScan inString sd false rest
      (c :: r.1, r.2)
termination_by _ _ _ l => l.length
decreasing_by
  all_goals simp only [List.length_cons, List.length_drop]
  all_goals omega

/-- Per-line step of `removePythonComments`.  The cross-line state is the open
triple-quote delimiter, if any.  Inside a multiline string the whole line is
written verbatim and only the presence of the delimiter is checked; when a
line opens a multiline string the source's final write is guarded by
`!inMultilineString`, so the already-built cleaned text is discarded. -/
def pyLine : Option (List Char) → List Char → List Char × Bool × Option (List Char)
  | some delim, line =>
      (line, false, if (idxOfSub delim line).isSome then none else some delim)
  | none, line =>
      match pyScan false (Char.ofNat 0) false line with
      | (_, some delim) => ([], false, some delim)
      | (cleaned, none) => (trimRightST cleaned, false, none)

def removePythonComments (content : List Char) : List Char :=
  driveLines pyLine none (splitLines content)

/-! ### Byte-exact Python remover

`pyScan` above uses the rune index of the closing triple quote; the source
instead takes the byte offset returned by `strings.Index(string(runes[j+3:]),
delim)` and slices the rune slice with it: `runes[j : j+3+endIdx+3]`.  On
ASCII documents the two coincide (`pyScanB_ascii` below); on others the
byte-exact scan consumes extra runes, and when the slice bound exceeds the
rune slice it panics — modelled as `none`. -/

/-- Byte-exact scan of one Python line; `none` is the source's out-of-range
rune-slice panic. -/
def pyScanB : Bool → Char → Bool → List Char → Option (List Char × Option (List Char))
  | _, _, _, [] => some ([], none)
  | inString, sd, escaped, c :: rest =>
    if escaped then
      match pyScanB inString sd false rest with
      | some r => some (c :: r.1, r.2)
      | none => none
    else if c == '\\' && inString then
      match pyScanB inString sd true rest with
      | some r => some (c :: r.1, r.2)
      | none => none
    else if !inString && 2 ≤ rest.length &&
        ((c == '\'' && rest.take 2 == ['\'', '\'']) ||
         (c == '"' && rest.take 2 == ['"', '"'])) then
      let delim := [c, c, c]
      match idxOfSub delim (rest.drop 2) with
      | some endIdx =>
          let b := utf8Len ((rest.drop 2).take endIdx)
          let consumed := 3 + b + 3
          if consumed ≤ (c :: rest).length then
            match pyScanB inString sd false ((c :: rest).drop consumed) with
            | some r => some ((c :: rest).take consumed ++ r.1, r.2)
            | none => none
          else none
      | none => some (c :: rest, some delim)
    else if (c == '"' || c == '\'') && !inString then
      match pyScanB true c false rest with
      | some r => some (c :: r.1, r.2)
      | none => none
    else if inString && c == sd then
      match pyScanB false (Char.ofNat 0) false rest with
      | some r => some (c :: r.1, r.2)
      | none => none
    else if inString then
      match pyScanB inString sd false rest with
      | some r => some (c :: r.1, r.2)
      | none => none
    else if c == '#' then some ([], none)
    else
      match pyScanB inString sd false rest with
      | some r => some (c :: r.1, r.2)
      | none => none
termination_by _ _ _ l => l.length
decreasing_by
  all_goals simp only [List.length_cons, List.length_drop]
  all_goals omega

/-- Byte-exact per-line step of `removePythonComments`. -/
def pyLineB : Option (List Char) → List Char → Option (List Char × Bool × Option (List Char))
  | some delim, line =>
      some (line, false, if (idxOfSub delim line).isSome then none else some delim)
  | none, line =>
      match pyScanB false (Char.ofNat 0) false line with
      | none => none
      | some (_, some delim) => some ([], false, some delim)
      | some (cleaned, none) => some (trimRightST cleaned, false, none)

/-- `driveLines` for a per-line step that can fail (a panic aborts the whole
program, so the document result is `none`). -/
def driveLinesO {σ : Type} (f : σ → List Char → Option (List Char × Bool × σ)) :
    σ → List (List Char) → Option (List Char)
  | _, [] => some []
  | s, line :: rest =>
    match f s line with
    | none => none
    | some step =>
      match driveLinesO f step.2.2 rest with
      | none => none
      | some tail =>
          some (step.1 ++ (if step.2.1 then ['\n'] else if rest.isEmpty then [] else ['\n'])
            ++ tail)

/-- Byte-exact `removePythonComments`; `none` when the source panics. -/
def removePythonCommentsB (content : List Char) : Option (List Char) :=
  driveLinesO pyLineB none (splitLines content)

/-- Exit condition of the per-line Go scan: the line ended in `Normal` state,
inside a block comment, or inside a multi-line raw string. -/
inductive GoExit | normal | block | raw
deriving DecidableEq

/-- Scan of one Go line with state `(inString, inRawString, inRune, escaped)`. -/
def goScan : Bool → Bool → Bool → Bool → List Char → List Char × GoExit
  | _, _, _, _, [] => ([], .normal)
  | inString, inRawString, inRune, escaped, c :: rest =>
    if escaped then
      let r := goScan inString inRawString inRune false rest
      (c :: r.1, r.2)
    else if c == '\\' && (inString || inRune) then
      let r := goScan inString inRawString inRune true rest
      (c :: r.1, r.2)
    else if c == '`' && !inString && !inRune then
      if !inRawString then
        -- look ahead: does the raw string close on this line?
        if (idxOfSub ['`'] rest).isSome then
          let r := goScan inString true inRune false rest
          (c :: r.1, r.2)
        else (c :: rest, .raw)
      else
        let r := goScan inString false inRune false rest
        (c :: r.1, r.2)
    else if c == '\'' && !inString && !inRawString then
      let r := goScan inString inRawString (!inRune) false rest
      (c :: r.1, r.2)
    else if c == '"' && !inRawString && !inRune then
      let r := goScan (!inString) inRawString inRune false rest
      (c :: r.1, r.2)
    else if inString || inRawString || inRune then
      let r := goScan inString inRawString inRune false rest
      (c :: r.1, r.2)
    else if c == '/' && rest.headD ' ' == '*' then
      -- `strings.Index` returns a byte offset into `string(runes[j+2:])`, and
      -- the source advances `j += endIdx + 4` in rune units: compute the byte
      -- offset of the rune-level match explicitly.
      match idxOfSub ['*', '/'] (rest.drop 1) with
      | some endIdx =>
          goScan inString inRawString inRune false
            ((c :: rest).drop (utf8Len ((rest.drop 1).take endIdx) + 4))
      | none => ([], .block)
    else if c == '/' && rest.headD ' ' == '/' then ([], .normal)
    else
      let r := goScan inString inRawString inRune false rest
      (c :: r.1, r.2)
termination_by _ _ _ _ l => l.length
decreasing_by
  all_goals simp only [List.length_cons, List.length_drop]
  all_goals omega

/-- Scan of a Go line (or the tail of one) starting in `Normal` state; the
cleaned text is trimmed of trailing space/tab before being written. -/
def goLineScan (line : List Char) : List Char × Bool × (Bool × Bool) :=
  match goScan false false false false line with
  | (cleaned, .normal) => (trimRightST cleaned, false, (false, false))
  | (cleaned, .block) => (trimRightST cleaned, false, (true, false))
  | (cleaned, .raw) => (trimRightST cleaned, false, (false, true))

/-- Continuation of an open block comment at the start of a (rest of a) Go
line: if `*/` occurs, scanning resumes after it; otherwise the source writes a
bare `"\n"` and keeps the state. -/
def goLineRest (inBlock : Bool) (line : List Char) : List Char × Bool × (Bool × Bool) :=
  if inBlock then
    match idxOfSub ['*', '/'] line with
    | none => ([], true, (true, false))
    | some idx => goLineScan (line.drop (idx + 2))
  else goLineScan line

/-- Per-line step of `removeGoComments` with cross-line state
`(inBlockComment, inRawStringMultiline)`. -/
def goLine : Bool × Bool → List Char → List Char × Bool × (Bool × Bool)
  | (inBlock, inRawMulti), line =>
    if inRawMulti then
      match idxOfSub ['`'] line with
      | none => (line, false, (inBlock, true))
      | some idx =>
          let r := goLineRest inBlock (line.drop (idx + 1))
          (line.take (idx + 1) ++ r.1, r.2.1, r.2.2)
    else goLineRest inBlock line

def removeGoComments (content : List Char) : List Char :=
  driveLines goLine (false, false) (splitLines content)

/-! ## JS/TS remover (`removeJSComments`, comments_go.go part 4) -/

/-- Is there a backtick preceded by an even number of consecutive backslashes
in `l`?  `bs` counts the backslashes immediately before the current position.
Mirrors the closing-backtick detection loops of the source. -/
def jsHasTplClose : Nat → List Char → Bool
  | _, [] => false
  | bs, c :: rest =>
    if c == '`' then (if bs % 2 == 0 then true else jsHasTplClose 0 rest)
    else if c == '\\' then jsHasTplClose (bs + 1) rest
    else jsHasTplClose 0 rest

/-- Exit condition of the per-line JS scan. -/
inductive JsExit | normal | block | tpl
deriving DecidableEq

/-- Scan of one JS/TS line with state
`(inString, inTemplateLiteral, stringChar, escaped)`. -/
def jsScan : Bool → Bool → Char → Bool → List Char → List Char × JsExit
  | _, _, _, _, [] => ([], .normal)
  | inString, inTpl, sc, escaped, c :: rest =>
    if escaped then
      let r := jsScan inString inTpl sc false rest
      (c :: r.1, r.2)
    else if c == '\\' && (inString || inTpl) then
      let r := jsScan inString inTpl sc true rest
      (c :: r.1, r.2)
    else if !inTpl && (c == '"' || c == '\'') then
      if !inString then
        let r := jsScan true inTpl c false rest
        (c :: r.1, r.2)
      else if c == sc then
        let r := jsScan false inTpl (Char.ofNat 0) false rest
        (c :: r.1, r.2)
      else
        let r := jsScan inString inTpl sc false rest
        (c :: r.1, r.2)
    else if c == '`' && !inString then
      if !inTpl then
        -- look ahead for an unescaped closing backtick on this line
        if jsHasTplClose 0 rest then
          let r := jsScan inString true sc false rest
          (c :: r.1, r.2)
        else (c :: rest, .tpl)
      else
        let r := jsScan inString false sc false rest
        (c :: r.1, r.2)
    else if inString || inTpl then
      let r := jsScan inString inTpl sc false rest
      (c :: r.1, r.2)
    else if c == '/' && rest.headD ' ' == '*' then
      match idxOfSub ['*', '/'] (rest.drop 1) with
      | some endIdx => jsScan inString inTpl sc false ((c :: rest).drop (endIdx + 4))
      | none => ([], .block)
    else if c == '/' && rest.headD ' ' == '/' then ([], .normal)
    else
      let r := jsScan inString inTpl sc false rest
      (c :: r.1, r.2)
termination_by _ _ _ _ l => l.length
decreasing_by
  all_goals simp only [List.length_cons, List.length_drop]
  all_goals omega

/-- Scan of a JS line (or the tail of one) starting in `Normal` state.  When a
multiline template literal opens, the source's final write is guarded by
`!inTemplateLiteralMultiline`, so the cleaned text is discarded. -/
def jsLineScan (line : List Char) : List Char × Bool × (Bool × Bool) :=
  match jsScan false false (Char.ofNat 0) false line with
  | (_, .tpl) => ([], false, (false, true))
  | (cleaned, .block) => (trimRightST cleaned, false, (true, false))
  | (cleaned, .normal) => (trimRightST cleaned, false, (false, false))

/-- Per-line step of `removeJSComments` with cross-line state
`(inBlockComment, inTemplateLiteralMultiline)`.  A template-literal
continuation line is emitted verbatim in full; an open block comment either
closes (and the rest of the line is scanned) or the source writes a bare
`"\n"`. -/
def jsLine : Bool × Bool → List Char → List Char × Bool × (Bool × Bool)
  | (inBlock, inTplMulti), line =>
    if inTplMulti then
      (line, false, (inBlock, !jsHasTplClose 0 line))
    else if inBlock then
      match idxOfSub ['*', '/'] line with
      | none => ([], true, (true, false))
      | some idx => jsLineScan (line.drop (idx + 2))
    else jsLineScan line

def removeJSComments (content : List Char) : List Char :=
  driveLines jsLine (false, false) (splitLines content)

/-! ## Rust remover (`removeRustComments`, main.go part 2) -/

/-- Depth-tracking scan for nested Rust block comments, shared by the
continuation loop and the in-line loop of the source (both have the same
body): each `/*` increments, each `*/` decrements; reaching depth 0 returns
the rest of the line. -/
def rustBlockScan : Int → List Char → Option (List Char) × Int
  | depth, '/' :: '*' :: rest => rustBlockScan (depth + 1) rest
  | depth, '*' :: '/' :: rest =>
      if depth - 1 == 0 then (some rest, 0)
      else rustBlockScan (depth - 1) rest
  | depth, _ :: rest => rustBlockScan depth rest
  | depth, [] => (none, depth)

theorem rustBlockScan_some_length : ∀ (d : Int) (l rem : List Char) (d2 : Int),
    rustBlockScan d l = (some rem, d2) → rem.length ≤ l.length := by
  intro d l
  induction d, l using rustBlockScan.induct with
  | case1 d rest ih =>
      intro rem d2 h
      rw [rustBlockScan] at h
      have := ih _ _ h
      simp only [List.length_cons]
      omega
  | case2 d rest h0 =>
      intro rem d2 h
      rw [rustBlockScan] at h
      simp only [h0, if_pos] at h
      simp only [Prod.mk.injEq, Option.some.injEq] at h
      obtain ⟨h1, h2⟩ := h
      subst h1
      simp only [List.length_cons]
      omega
  | case3 d rest h0 ih =>
      intro rem d2 h
      rw [rustBlockScan] at h
      simp only [h0] at h
      simp only [if_neg, Bool.false_eq_true, not_false_iff] at h
      have := ih _ _ h
      simp only [List.length_cons]
      omega
  | case4 d c rest h1 h2 ih =>
      intro rem d2 h
      rw [rustBlockScan] at h
      all_goals first
        | exact h1
        | exact h2
        | (have ht := ih _ _ h; simp only [List.length_cons]; omega)
  | case5 d =>
      intro rem d2 h
      rw [rustBlockScan] at h
      simp at h


/-- Exit condition of the per-line Rust scan: `Normal`, or inside a (possibly
nested) block comment with the current depth. -/
inductive RustExit
  | normal
  | block (depth : Int)
deriving DecidableEq

/-- Scan of one Rust line with state `(inString, inRawString, inChar,
escaped)`.  Raw strings `r##"…"##` match the hash count on both ends; if the
closing token is not on this line the rest of the line is emitted and the scan
stops (the source's `inDiv` locals are per line, so no raw-string state
survives to the next line). -/
def rustScan : Bool → Bool → Bool → Bool → List Char → List Char × RustExit
  | _, _, _, _, [] => ([], .normal)
  | inString, inRawString, inChar, escaped, c :: rest =>
    if escaped then
      let r := rustScan inString inRawString inChar false rest
      (c :: r.1, r.2)
    else if c == '\\' && (inString || inChar) then
      let r := rustScan inString inRawString inChar true rest
      (c :: r.1, r.2)
    else if !inString && !inChar && c == 'r' && !rest.isEmpty &&
        (rest.drop (rest.takeWhile (· == '#')).length).headD ' ' == '"' then
      let hashes := rest.takeWhile (· == '#')
      let body := (rest.drop hashes.length).tail
      let delim := '"' :: hashes
      match idxOfSub delim body with
      | some endIdx =>
          let consumed := endIdx + delim.length
          let r := rustScan inString false inChar false (body.drop consumed)
          (c :: (hashes ++ '"' :: (body.take consumed ++ r.1)), r.2)
      | none => (c :: (hashes ++ '"' :: body), .normal)
    else if c == '\'' && !inString && !inRawString then
      let r := rustScan inString inRawString (!inChar) false rest
      (c :: r.1, r.2)
    else if c == '"' && !inRawString && !inChar then
      let r := rustScan (!inString) inRawString inChar false rest
      (c :: r.1, r.2)
    else if inString || inRawString || inChar then
      let r := rustScan inString inRawString inChar false rest
      (c :: r.1, r.2)
    else if c == '/' && rest.headD ' ' == '*' then
      match h : rustBlockScan 1 (rest.drop 1) with
      | (some rem, _) => rustScan inString inRawString inChar false rem
      | (none, d) => ([], .block d)
    else if c == '/' && rest.headD ' ' == '/' then ([], .normal)
    else
      let r := rustScan inString inRawString inChar false rest
      (c :: r.1, r.2)
termination_by _ _ _ _ l => l.length
decreasing_by
  all_goals first
    | (have hb := rustBlockScan_some_length _ _ _ _ h
       simp only [List.length_cons, List.length_drop] at hb ⊢
       omega)
    | (simp only [List.length_cons, List.length_drop, List.length_tail]
       omega)

/-- Scan of a Rust line (or the tail of one) starting in `Normal` state; the
cleaned text is trimmed of trailing space/tab. -/
def rustLineScan (line : List Char) : List Char × Bool × (Bool × Int) :=
  match rustScan false false false false line with
  | (cleaned, .normal) => (trimRightST cleaned, false, (false, 0))
  | (cleaned, .block d) => (trimRightST cleaned, false, (true, d))

/-- Per-line step of `removeRustComments` with cross-line state
`(inBlockComment, blockCommentDepth)`: an open block comment is scanned for
nested open/close pairs; if all levels close, the rest of the line is scanned
normally, otherwise the source writes a bare `"\n"`. -/
def rustLine : Bool × Int → List Char → List Char × Bool × (Bool × Int)
  | (inBlock, depth), line =>
    if inBlock then
      match rustBlockScan depth line with
      | (none, d) => ([], true, (true, d))
      | (some rem, _) => rustLineScan rem
    else rustLineScan line

def removeRustComments (content : List Char) : List Char :=
  driveLines rustLine (false, 0) (splitLines content)

/-! ## Terraform remover (`removeTerraformComments`, comments_terraform.go)

Unlike the other removers this one is a single rune-wise pass over the whole
document, so block comments swallow the newlines they span and no trailing
whitespace is trimmed. -/

/-- `isAlphanumeric` from the source. -/
def isAlphanumeric (r : Char) : Bool :=
  ('a' ≤ r && r ≤ 'z') || ('A' ≤ r && r ≤ 'Z') || ('0' ≤ r && r ≤ '9')

/-- Copy of a double-quoted Terraform string after its opening quote: each char
is written; a backslash also writes the following char; the closing quote ends
the copy.  Returns the emitted text and the remaining input. -/
def tfString : List Char → List Char × List Char
  | [] => ([], [])
  | '\\' :: c :: rest =>
      let r := tfString rest
      ('\\' :: c :: r.1, r.2)
  | '"' :: rest => (['"'], rest)
  | c :: rest =>
      let r := tfString rest
      (c :: r.1, r.2)

theorem tfString_length (l : List Char) : (tfString l).2.length ≤ l.length := by
  induction l using tfString.induct with
  | case1 => simp [tfString]
  | case2 c rest ih =>
      rw [tfString]
      simp only [List.length_cons]
      omega
  | case3 rest =>
      rw [tfString]
      simp only [List.length_cons]
      omega
  | case4 c rest h1 h2 ih =>
      rw [tfString]
      all_goals first
        | exact h1
        | exact h2
        | (simp only [List.length_cons]; omega)

/-- Read one line of the heredoc body: the characters before the next
newline, and the remaining input (starting with that newline, if any). -/
def takeLine : List Char → List Char × List Char
  | [] => ([], [])
  | '\n' :: rest => ([], '\n' :: rest)
  | c :: rest =>
      let r := takeLine rest
      (c :: r.1, r.2)

theorem takeLine_append (l : List Char) : (takeLine l).1 ++ (takeLine l).2 = l := by
  induction l using takeLine.induct with
  | case1 => simp [takeLine]
  | case2 rest => simp [takeLine]
  | case3 c rest h ih =>
      rw [takeLine]
      all_goals first
        | exact h
        | simpa using ih

theorem takeLine_rest_le (l : List Char) : (takeLine l).2.length ≤ l.length := by
  have h := takeLine_append l
  have : (takeLine l).1.length + (takeLine l).2.length = l.length := by
    rw [← List.length_append, h]
  omega

/-- Heredoc body copy: lines are emitted verbatim until the first line whose
`TrimSpace` equals the delimiter (that line and its newline are also
emitted).  Returns the emitted text and the remaining input. -/
def tfHeredocBody (delim : List Char) (l : List Char) : List Char × List Char :=
  if l.isEmpty then ([], [])
  else
    let tl := takeLine l
    if trimSpaceGo tl.1 == delim then
      match tl.2 with
      | '\n' :: r2 => (tl.1 ++ ['\n'], r2)
      | _ => (tl.1, tl.2)
    else
      match hr : tl.2 with
      | '\n' :: r2 =>
          let r := tfHeredocBody delim r2
          (tl.1 ++ '\n' :: r.1, r.2)
      | _ => (tl.1, tl.2)
termination_by l.length
decreasing_by
  have hle := takeLine_rest_le l
  rw [hr] at hle
  simp only [List.length_cons] at hle
  omega

theorem tfHeredocBody_rest_le (delim : List Char) (l : List Char) :
    (tfHeredocBody delim l).2.length ≤ l.length := by
  induction l using tfHeredocBody.induct delim with
  | case1 x hx =>
      rw [tfHeredocBody, if_pos hx]
      simp
  | case2 x hx tl hcond rest heq =>
      rw [tfHeredocBody, if_neg hx]
      have heq' : (takeLine x).2 = '\n' :: rest := heq
      have hle := takeLine_rest_le x
      rw [heq'] at hle
      simp only [List.length_cons] at hle
      simp only [hcond, if_true, heq']
      omega
  | case3 x hx tl hcond hnone =>
      rw [tfHeredocBody, if_neg hx]
      have hle := takeLine_rest_le x
      simp only [hcond, if_true]
      exact hle
  | case4 x hx tl hcond r2 heq ih =>
      rw [tfHeredocBody, if_neg hx]
      have heq' : (takeLine x).2 = '\n' :: r2 := heq
      have hle := takeLine_rest_le x
      rw [heq'] at hle
      simp only [List.length_cons] at hle
      simp only [hcond, Bool.false_eq_true, if_false]
      split
      · rename_i r2' hr
        rw [heq'] at hr
        simp only [List.cons.injEq] at hr
        obtain ⟨-, hr2⟩ := hr
        subst hr2
        simp only []
        omega
      · rename_i hcatch
        exact absurd heq' (by simpa using hcatch r2)
  | case5 x hx tl hcond hnone =>
      rw [tfHeredocBody, if_neg hx]
      have hle := takeLine_rest_le x
      simp only [hcond, Bool.false_eq_true, if_false]
      exact hle

/-- Skip the body of a Terraform block comment: drop everything up to and
including the first `*/` (or the rest of the input). -/
def tfSkipBlock : List Char → List Char
  | '*' :: '/' :: rest => rest
  | _ :: rest => tfSkipBlock rest
  | [] => []

theorem tfSkipBlock_le (l : List Char) : (tfSkipBlock l).length ≤ l.length := by
  induction l using tfSkipBlock.induct with
  | case1 rest => rw [tfSkipBlock]; simp only [List.length_cons]; omega
  | case2 c rest h ih =>
      rw [tfSkipBlock]
      all_goals first
        | exact h
        | (simp only [List.length_cons]; omega)
  | case3 => simp [tfSkipBlock]

theorem dropWhileLenLe (p : Char → Bool) (l : List Char) :
    (l.dropWhile p).length ≤ l.length := by
  induction l with
  | nil => simp [List.dropWhile]
  | cons c rest ih =>
      simp only [List.dropWhile]
      split
      · simp only [List.length_cons]; omega
      · simp

/-- Heredoc entry after a `<<`: read an optional `-`, then the identifier
delimiter.  When the delimiter is nonempty, emit the heredoc start and its
verbatim body and return the rest with `true`; when it is empty the source has
already advanced past `<<` (and the `-`) without emitting them, and only the
later checks of the loop iteration apply — return the remaining input with
`false`. -/
def tfHeredocIntro (c3 : Char) (tail : List Char) : List Char × List Char × Bool :=
  let afterDash := if c3 == '-' then tail else c3 :: tail
  let delim := afterDash.takeWhile (fun c => isAlphanumeric c || c == '_')
  if delim.isEmpty then ([], afterDash, false)
  else
    let r := tfHeredocBody delim (afterDash.drop delim.length)
    (('<' :: '<' :: (if c3 == '-' then '-' :: delim else delim)) ++ r.1, r.2, true)

theorem tfHeredocIntro_rest_le (c3 : Char) (tail : List Char) :
    (tfHeredocIntro c3 tail).2.1.length ≤ tail.length + 1 := by
  by_cases hdash : (c3 == '-') = true
  all_goals simp only [tfHeredocIntro, hdash, if_true, Bool.false_eq_true, if_false]
  all_goals split
  · simp only []
    omega
  · simp only []
    refine le_trans (tfHeredocBody_rest_le _ _) ?_
    simp only [List.length_drop]
    omega
  · simp only [List.length_cons]
    omega
  · simp only []
    refine le_trans (tfHeredocBody_rest_le _ _) ?_
    simp only [List.length_drop, List.length_cons]
    omega

mutual

/-- Main scan of `removeTerraformComments`: a character-wise pass over the
whole document.  Double-quoted strings and heredocs are recognised first;
everything else falls to the later checks of the same loop iteration
(`tfAfter`). -/
def tfScan : List Char → List Char
  | [] => []
  | '"' :: rest =>
      let r := tfString rest
      '"' :: (r.1 ++ tfScan r.2)
  | '<' :: '<' :: c3 :: tail =>
      let r := tfHeredocIntro c3 tail
      if r.2.2 then r.1 ++ tfScan r.2.1
      else tfAfter r.2.1
  | l => tfAfter l
termination_by l => (l.length, 1)
decreasing_by
  · have := tfString_length rest
    simp only [Prod.lex_def, List.length_cons]
    omega
  · have := tfHeredocIntro_rest_le c3 tail
    simp only [Prod.lex_def, List.length_cons]
    omega
  · have := tfHeredocIntro_rest_le c3 tail
    simp only [Prod.lex_def, List.length_cons]
    omega
  · simp [Prod.lex_def]

/-- The line-comment, block-comment and plain-character checks at the tail of
the source's loop body. -/
def tfAfter : List Char → List Char
  | [] => []
  | '#' :: rest => tfScan (('#' :: rest).dropWhile (· ≠ '\n'))
  | '/' :: '/' :: rest => tfScan (('/' :: '/' :: rest).dropWhile (· ≠ '\n'))
  | '/' :: '*' :: rest => tfScan (tfSkipBlock rest)
  | c :: rest => c :: tfScan rest
termination_by l => (l.length, 0)
decreasing_by
  · simp only [Prod.lex_def, List.dropWhile, List.length_cons]
    have := dropWhileLenLe (fun c => !decide (c = '\n')) rest
    simp_all
    omega
  · simp only [Prod.lex_def, List.dropWhile, List.length_cons]
    have := dropWhileLenLe (fun c => !decide (c = '\n')) rest
    simp_all
    omega
  · have := tfSkipBlock_le rest
    simp only [Prod.lex_def, List.length_cons]
    omega
  · simp [Prod.lex_def]

end

def removeTerraformComments (code : List Char) : List Char := tfScan code

/-! ## Extension dispatch (`processFile` / `run`, main.go) -/

/-- `ErrUnsupportedFileType` from main.go. -/
structure ErrUnsupportedFileType where
  Extension : String
deriving DecidableEq

/-- The list of extensions with a case in `processFile`'s switch. -/
def supportedExtensions : List String :=
  [".js", ".ts", ".jsx", ".tsx", ".go", ".py", ".rs", ".tf", ".tfvars", ".yaml", ".yml"]

/-- The pure part of `processFile`: the extension switch selecting a language
remover, or the unsupported-extension error.  Reading and rewriting the file
around it is I/O and stays outside the model. -/
def processFileDispatch (ext : String) (content : List Char) :
    Except ErrUnsupportedFileType (List Char) :=
  if ext = ".js" ∨ ext = ".ts" ∨ ext = ".jsx" ∨ ext = ".tsx" then
    .ok (removeJSComments content)
  else if ext = ".go" then .ok (removeGoComments content)
  else if ext = ".py" then .ok (removePythonComments content)
  else if ext = ".rs" then .ok (removeRustComments content)
  else if ext = ".tf" ∨ ext = ".tfvars" then .ok (removeTerraformComments content)
  else if ext = ".yaml" ∨ ext = ".yml" then .ok (removeYAMLComments content)
  else .error ⟨ext⟩

/-- Outcome of `run`'s per-file handling of `processFile`'s result: an
`ErrUnsupportedFileType` makes the caller skip the file and continue; success
means the file was processed. -/
inductive FileOutcome
  | processed (cleaned : List Char)
  | skippedUnsupported
deriving DecidableEq

/-- The `errors.As(err, &unsupportedErr)` branch of `run`: unsupported files
are skipped, not fatal. -/
def runStep (r : Except ErrUnsupportedFileType (List Char)) : FileOutcome :=
  match r with
  | .error _ => .skippedUnsupported
  | .ok t => .processed t

/-! ## Line-structure lemmas -/

/-- `strings.Join(lines, "\n")`. -/
def joinLines : List (List Char) → List Char
  | [] => []
  | [l] => l
  | l :: ls => l ++ '\n' :: joinLines ls

theorem splitLines_ne_nil (l : List Char) : splitLines l ≠ [] := by
  induction l with
  | nil => simp [splitLines]
  | cons c rest ih =>
      rw [splitLines]
      split
      · simp
      · split
        · simp
        · simp

theorem splitLines_nlFree (l : List Char) : ∀ p ∈ splitLines l, '\n' ∉ p := by
  induction l with
  | nil =>
      intro p hp
      simp only [splitLines, List.mem_singleton] at hp
      simp [hp]
  | cons c rest ih =>
      intro p hp
      by_cases hc : c = '\n'
      · rw [splitLines, if_pos hc] at hp
        rcases List.mem_cons.mp hp with hp | hp
        · simp [hp]
        · exact ih p hp
      · rw [splitLines, if_neg hc] at hp
        cases hsp : splitLines rest with
        | nil => exact absurd hsp (splitLines_ne_nil rest)
        | cons l0 ls =>
            rw [hsp] at hp
            rcases List.mem_cons.mp hp with hp | hp
            · subst hp
              intro hmem
              rcases List.mem_cons.mp hmem with hm | hm
              · exact hc hm.symm
              · exact ih l0 (hsp ▸ List.mem_cons_self l0 ls) hm
            · exact ih p (by rw [hsp]; exact List.mem_cons_of_mem _ hp)

theorem splitLines_length (l : List Char) : (splitLines l).length = nlCount l + 1 := by
  induction l with
  | nil => simp [splitLines, nlCount]
  | cons c rest ih =>
      by_cases hc : c = '\n'
      · rw [splitLines, if_pos hc]
        simp only [List.length_cons, ih, nlCount, List.count_cons, hc]
        simp
      · rw [splitLines, if_neg hc]
        cases hsp : splitLines rest with
        | nil => exact absurd hsp (splitLines_ne_nil rest)
        | cons l0 ls =>
            rw [hsp] at ih
            simp only [List.length_cons, nlCount, List.count_cons] at ih ⊢
            simp [hc]
            omega

theorem nlCount_append (a b : List Char) : nlCount (a ++ b) = nlCount a + nlCount b :=
  List.count_append _ _ _

theorem nlCount_eq_zero (a : List Char) (h : '\n' ∉ a) : nlCount a = 0 :=
  List.count_eq_zero.mpr h

/-- A per-line step that never writes its own newline and emits newline-free
text for newline-free lines keeps the number of separators equal to the
number of lines minus one. -/
theorem driveLines_nlCount {σ : Type} (f : σ → List Char → List Char × Bool × σ)
    (hf : ∀ s line, '\n' ∉ line → '\n' ∉ (f s line).1 ∧ (f s line).2.1 = false) :
    ∀ (ls : List (List Char)) (s : σ), (∀ p ∈ ls, '\n' ∉ p) →
      nlCount (driveLines f s ls) = ls.length - 1 := by
  intro ls
  induction ls with
  | nil => intro s _; simp [driveLines, nlCount]
  | cons line rest ih =>
      intro s hmem
      rw [driveLines]
      obtain ⟨h1, h2⟩ := hf s line (hmem line (List.mem_cons_self _ _))
      cases rest with
      | nil =>
          simp only [h2, List.isEmpty_nil, if_false, if_true, Bool.false_eq_true]
          simp only [driveLines, nlCount]
          rw [List.append_nil, List.append_nil, List.count_eq_zero.mpr h1]
          simp
      | cons r rs =>
          have hrest : ∀ p ∈ r :: rs, '\n' ∉ p := fun p hp =>
            hmem p (List.mem_cons_of_mem _ hp)
          have := ih (f s line).2.2 hrest
          simp only [h2, Bool.false_eq_true, if_false, List.isEmpty_cons]
          rw [nlCount_append, nlCount_append, nlCount_eq_zero _ h1, this]
          simp [nlCount]
          omega

theorem take_append_pref {o l : List Char} (n : Nat) (h : o <+: l.drop n) :
    l.take n ++ o <+: l := by
  obtain ⟨t, ht⟩ := h
  exact ⟨t, by rw [List.append_assoc, ht, List.take_append_drop]⟩

theorem trimRightST_pref (l : List Char) : trimRightST l <+: l := by
  unfold trimRightST
  obtain ⟨t, ht⟩ : l.reverse.dropWhile isSpaceTab <:+ l.reverse := by
    conv_rhs => rw [← List.takeWhile_append_dropWhile isSpaceTab l.reverse]
    exact ⟨_, rfl⟩
  refine ⟨t.reverse, ?_⟩
  have := congrArg List.reverse ht
  simpa [List.reverse_append] using this

theorem yamlScan_pref : ∀ (st : Bool) (d : Char) (e : Bool) (l : List Char),
    yamlScan st d e l <+: l := by
  intro st d e l
  induction st, d, e, l using yamlScan.induct with
  | case1 => simp [yamlScan]
  | case2 inString delim c rest ih =>
      rw [yamlScan]
      simp only [if_true]
      exact List.cons_prefix_cons.mpr ⟨rfl, ih⟩
  | case3 inString delim escaped c rest h1 h2 ih =>
      rw [yamlScan]
      simp only [h1, h2, if_true, Bool.false_eq_true, if_false]
      exact List.cons_prefix_cons.mpr ⟨rfl, ih⟩
  | case4 inString delim escaped c rest h1 h2 h3 ih =>
      have hr : rest = '\'' :: rest.tail := by
        cases rest with
        | nil => simp [List.headD] at h3
        | cons a t => simp only [List.headD] at h3; simp_all
      rw [yamlScan]
      simp only [h1, h2, h3, if_true, Bool.false_eq_true, if_false]
      rw [hr]
      exact List.cons_prefix_cons.mpr ⟨rfl, List.cons_prefix_cons.mpr ⟨rfl, by
        rw [← hr]; exact ih⟩⟩
  | case5 inString delim escaped c rest h1 h2 h3 h4 ih =>
      rw [yamlScan]
      simp only [h1, h2, h3, h4, if_true, Bool.false_eq_true, if_false]
      exact List.cons_prefix_cons.mpr ⟨rfl, ih⟩
  | case6 inString delim escaped c rest h1 h2 h3 h4 h5 ih =>
      rw [yamlScan]
      simp only [h1, h2, h3, h4, h5, if_true, Bool.false_eq_true, if_false]
      exact List.cons_prefix_cons.mpr ⟨rfl, ih⟩
  | case7 delim escaped c rest h1 h2 h3 h4 h5 ih =>
      rw [yamlScan]
      simp only [h1, h2, h3, h4, h5, if_true, Bool.false_eq_true, if_false]
      exact List.cons_prefix_cons.mpr ⟨rfl, ih⟩
  | case8 inString delim escaped c rest h1 h2 h3 h4 h5 h6 h7 =>
      rw [yamlScan]
      simp only [h1, h2, h3, h4, h5, h6, h7] at *
      simp_all
  | case9 inString delim escaped c rest h1 h2 h3 h4 h5 h6 h7 ih =>
      rw [yamlScan]
      simp_all

theorem pyScan_pref : ∀ (st : Bool) (sd : Char) (e : Bool) (l : List Char),
    (pyScan st sd e l).1 <+: l := by
  intro st sd e l
  induction st, sd, e, l using pyScan.induct with
  | case1 => simp [pyScan]
  | case2 inString delim c rest ih =>
      rw [pyScan]
      simp only [if_true]
      exact List.cons_prefix_cons.mpr ⟨rfl, ih⟩
  | case3 inString delim escaped c rest h1 h2 ih =>
      rw [pyScan]
      simp only [h1, h2, if_true, Bool.false_eq_true, if_false]
      exact List.cons_prefix_cons.mpr ⟨rfl, ih⟩
  | case4 inString delim escaped c rest h1 h2 h3 dl j hj tot ih =>
      have hj' : idxOfSub [c, c, c] (rest.drop 2) = some j := hj
      rw [pyScan]
      simp only [h1, h2, h3, if_true, Bool.false_eq_true, if_false, hj']
      exact take_append_pref _ ih
  | case5 inString delim escaped c rest h1 h2 h3 dl hj =>
      have hj' : idxOfSub [c, c, c] (rest.drop 2) = none := hj
      rw [pyScan]
      simp only [h1, h2, h3, if_true, Bool.false_eq_true, if_false, hj']
      exact List.prefix_refl _
  | case6 inString delim escaped c rest h1 h2 h3 h4 ih =>
      rw [pyScan]
      simp only [h1, h2, h3, h4, if_true, Bool.false_eq_true, if_false]
      exact List.cons_prefix_cons.mpr ⟨rfl, ih⟩
  | case7 inString delim escaped c rest h1 h2 h3 h4 h5 ih =>
      rw [pyScan]
      simp only [h1, h2, h3, h4, h5, if_true, Bool.false_eq_true, if_false]
      exact List.cons_prefix_cons.mpr ⟨rfl, ih⟩
  | case8 delim escaped c rest h1 h2 h3 h4 h5 ih =>
      rw [pyScan]
      simp only [h1, h2, h3, h4, h5, if_true, Bool.false_eq_true, if_false]
      exact List.cons_prefix_cons.mpr ⟨rfl, ih⟩
  | case9 inString delim escaped c rest h1 h2 h3 h4 h5 h6 h7 =>
      rw [pyScan]
      simp_all
  | case10 inString delim escaped c rest h1 h2 h3 h4 h5 h6 h7 ih =>
      rw [pyScan]
      simp_all

theorem yamlLine_nlFree (s : Unit) (line : List Char) (h : '\n' ∉ line) :
    '\n' ∉ trimRightST (yamlScan false (Char.ofNat 0) false line) := by
  intro hmem
  exact h (((trimRightST_pref _).subset.trans (yamlScan_pref _ _ _ _).subset) hmem)

theorem pyLine_nlFree (s : Option (List Char)) (line : List Char) (h : '\n' ∉ line) :
    '\n' ∉ (pyLine s line).1 ∧ (pyLine s line).2.1 = false := by
  cases s with
  | some delim => exact ⟨h, rfl⟩
  | none =>
      rw [pyLine]
      cases hps : pyScan false (Char.ofNat 0) false line with
      | mk cl m =>
          cases m with
          | some delim => simp
          | none =>
              refine ⟨fun hmem => ?_, rfl⟩
              have hcl : cl <+: line := by
                have := pyScan_pref false (Char.ofNat 0) false line
                rw [hps] at this
                exact this
              exact h (((trimRightST_pref _).subset.trans hcl.subset) hmem)

theorem removePythonComments_nlCount (content : List Char) :
    nlCount (removePythonComments content) = nlCount content := by
  unfold removePythonComments
  rw [driveLines_nlCount _ pyLine_nlFree _ none (splitLines_nlFree content)]
  rw [splitLines_length]
  omega

/-- Does the line end without a trailing space or tab? -/
def endsClean (l : List Char) : Bool :=
  match l.getLast? with
  | some c => !(isSpaceTab c)
  | none => true

theorem dropWhile_head_not (p : Char → Bool) (l : List Char) (c : Char) (t : List Char)
    (h : l.dropWhile p = c :: t) : p c = false := by
  induction l with
  | nil => simp [List.dropWhile] at h
  | cons a rest ih =>
      rw [List.dropWhile] at h
      split at h
      · exact ih h
      · rename_i hp
        rw [List.cons.injEq] at h
        rw [← h.1]
        simpa using hp

theorem trimRightST_endsClean (l : List Char) : endsClean (trimRightST l) = true := by
  unfold trimRightST endsClean
  cases hd : l.reverse.dropWhile isSpaceTab with
  | nil => simp
  | cons c t =>
      have hc := dropWhile_head_not isSpaceTab l.reverse c t hd
      rw [List.getLast?_reverse]
      simp [hc]

/-! ## Specification-side blank-run predicate for the normalizer -/

/-- Spec-side check, following the specification's words: starting at a
newline, is there a run of one or more whitespace characters followed by
another newline?  Since a newline is itself whitespace, this is exactly "the
maximal whitespace run after the first newline contains a later newline". -/
def blankAfterNl (rest : List Char) : Bool :=
  ((rest.takeWhile isRegexWs).drop 1).contains '\n'

/-- Spec-side occurrence check for "a newline, one or more whitespace-only
characters, then a newline" anywhere in the text. -/
def hasBlankSep : List Char → Bool
  | [] => false
  | c :: rest => (c == '\n' && blankAfterNl rest) || hasBlankSep rest

theorem lastNlAux_isSome_of_best (run : List Char) :
    ∀ (i : Nat) (j : Nat), (lastNlAux i (some j) run).isSome = true := by
  induction run with
  | nil => intro i j; simp [lastNlAux]
  | cons c rest ih =>
      intro i j
      rw [lastNlAux]
      split
      · exact ih _ _
      · exact ih _ _

theorem lastNlAux_isSome_of_mem (run : List Char) :
    ∀ (i : Nat) (best : Option Nat), 1 ≤ i → '\n' ∈ run →
      (lastNlAux i best run).isSome = true := by
  induction run with
  | nil => intro i best hi hmem; simp at hmem
  | cons c rest ih =>
      intro i best hi hmem
      rw [lastNlAux]
      by_cases hc : c = '\n'
      · have : (c == '\n' && decide (1 ≤ i)) = true := by simp [hc, hi]
        rw [if_pos this]
        exact lastNlAux_isSome_of_best rest _ _
      · have hmem' : '\n' ∈ rest := by
          rcases List.mem_cons.mp hmem with hm | hm
          · exact absurd hm.symm hc
          · exact hm
        split
        · exact lastNlAux_isSome_of_best rest _ _
        · exact ih (i + 1) best (by omega) hmem'

theorem matchLenAt_cons_nl (rest : List Char) :
    matchLenAt ('\n' :: rest) =
      match lastNlAux 0 none (rest.takeWhile isRegexWs) with
      | some j => some (j + 2)
      | none => none := rfl

theorem matchLenAt_isSome_of_blank (rest : List Char) (hb : blankAfterNl rest = true) :
    (matchLenAt ('\n' :: rest)).isSome = true := by
  unfold blankAfterNl at hb
  rw [matchLenAt_cons_nl]
  cases hrun : rest.takeWhile isRegexWs with
  | nil => rw [hrun] at hb; simp at hb
  | cons r0 rtail =>
      rw [hrun] at hb
      simp only [List.drop_succ_cons, List.drop_zero] at hb
      have hmem : '\n' ∈ rtail := by
        rcases List.contains_iff_exists_mem_beq.mp hb with ⟨a, ha, hbeq⟩
        have : '\n' = a := by simpa using hbeq
        rw [this]
        exact ha
      rw [lastNlAux]
      have := lastNlAux_isSome_of_mem rtail 1 (if r0 == '\n' && decide (1 ≤ 0) then some 0 else none)
        (by omega) hmem
      cases hres : lastNlAux 1 (if r0 == '\n' && decide (1 ≤ 0) then some 0 else none) rtail with
      | none => rw [hres] at this; simp at this
      | some j => simp

theorem reHasMatch_of_hasBlankSep (l : List Char) (h : hasBlankSep l = true) :
    reHasMatch l = true := by
  induction l with
  | nil => simp [hasBlankSep] at h
  | cons c rest ih =>
      rw [hasBlankSep] at h
      rw [reHasMatch]
      rcases (by simpa using h : (c == '\n' && blankAfterNl rest) = true ∨ hasBlankSep rest = true) with h1 | h2
      · have h1' : c = '\n' ∧ blankAfterNl rest = true := by simpa using h1
        obtain ⟨hc, hb⟩ := h1'
        subst hc
        rw [matchLenAt_isSome_of_blank rest hb]
        simp
      · rw [ih h2]
        simp

theorem collapse_reHasMatch_false (l : List Char) :
    reHasMatch (collapseExcessiveNewlines l) = false := by
  induction l using collapseExcessiveNewlines.induct with
  | case1 l hm ih =>
      rw [collapseExcessiveNewlines, dif_pos hm]
      exact ih
  | case2 l hm =>
      rw [collapseExcessiveNewlines, dif_neg hm]
      simpa using hm

theorem collapse_hasBlankSep_false (l : List Char) :
    hasBlankSep (collapseExcessiveNewlines l) = false := by
  cases hb : hasBlankSep (collapseExcessiveNewlines l) with
  | false => rfl
  | true =>
      have := reHasMatch_of_hasBlankSep _ hb
      rw [collapse_reHasMatch_false] at this
      exact absurd this (by simp)

theorem collapse_idem (l : List Char) :
    collapseExcessiveNewlines (collapseExcessiveNewlines l) = collapseExcessiveNewlines l := by
  rw [collapseExcessiveNewlines]
  rw [dif_neg]
  rw [collapse_reHasMatch_false]
  simp

/-! ## Heredoc body: verbatim emission and line characterisation -/

theorem tfHeredocBody_append (delim : List Char) (l : List Char) :
    (tfHeredocBody delim l).1 ++ (tfHeredocBody delim l).2 = l := by
  induction l using tfHeredocBody.induct delim with
  | case1 x hx =>
      rw [tfHeredocBody, if_pos hx]
      simpa using (List.isEmpty_iff.mp hx).symm
  | case2 x hx tl hcond rest heq =>
      rw [tfHeredocBody, if_neg hx]
      have heq' : (takeLine x).2 = '\n' :: rest := heq
      simp only [hcond, if_true, heq']
      have := takeLine_append x
      rw [heq'] at this
      simpa [List.append_assoc] using this
  | case3 x hx tl hcond hnone =>
      rw [tfHeredocBody, if_neg hx]
      simp only [hcond, if_true]
      exact takeLine_append x
  | case4 x hx tl hcond r2 heq ih =>
      rw [tfHeredocBody, if_neg hx]
      have heq' : (takeLine x).2 = '\n' :: r2 := heq
      simp only [hcond, Bool.false_eq_true, if_false]
      split
      · rename_i r2' hr
        rw [heq'] at hr
        simp only [List.cons.injEq] at hr
        obtain ⟨-, hr2⟩ := hr
        subst hr2
        simp only []
        have := takeLine_append x
        rw [heq'] at this
        rw [List.append_assoc]
        simp only [List.cons_append, ih]
        exact this
      · rename_i hcatch
        exact absurd heq' (by simpa using hcatch r2)
  | case5 x hx tl hcond hnone =>
      rw [tfHeredocBody, if_neg hx]
      simp only [hcond, Bool.false_eq_true, if_false]
      exact takeLine_append x

theorem takeLine_nlFree (p : List Char) (hp : '\n' ∉ p) : takeLine p = (p, []) := by
  induction p with
  | nil => simp [takeLine]
  | cons c rest ih =>
      have hc : c ≠ '\n' := fun h => hp (h ▸ List.mem_cons_self _ _)
      have hrest : '\n' ∉ rest := fun h => hp (List.mem_cons_of_mem _ h)
      rw [takeLine]
      all_goals first
        | exact hc
        | simp [ih hrest]

theorem takeLine_append_nl (p q : List Char) (hp : '\n' ∉ p) :
    takeLine (p ++ '\n' :: q) = (p, '\n' :: q) := by
  induction p with
  | nil => simp [takeLine]
  | cons c rest ih =>
      have hc : c ≠ '\n' := fun h => hp (h ▸ List.mem_cons_self _ _)
      have hrest : '\n' ∉ rest := fun h => hp (List.mem_cons_of_mem _ h)
      rw [List.cons_append, takeLine]
      all_goals first
        | exact hc
        | simp [ih hrest]

theorem joinLines_cons_ne_nil (a : List Char) (ls : List (List Char)) (h : ls ≠ []) :
    joinLines (a :: ls) = a ++ '\n' :: joinLines ls := by
  cases ls with
  | nil => exact absurd rfl h
  | cons b bs => rfl

/-- `tfHeredocBody` emits whole lines until, and including, the first line
whose trimmed content equals the delimiter; the remaining input is everything
after that line's newline. -/
theorem tfHeredocBody_lines (delim : List Char) :
    ∀ (pre : List (List Char)) (term : List Char) (post : List (List Char)),
      post ≠ [] →
      (∀ p ∈ pre, '\n' ∉ p ∧ (trimSpaceGo p == delim) = false) →
      '\n' ∉ term → (trimSpaceGo term == delim) = true →
      tfHeredocBody delim (joinLines (pre ++ term :: post)) =
        (joinLines (pre ++ [term]) ++ ['\n'], joinLines post) := by
  intro pre
  induction pre with
  | nil =>
      intro term post hpost _ hterm hdelim
      simp only [List.nil_append]
      rw [joinLines_cons_ne_nil term post hpost]
      have hne : (term ++ '\n' :: joinLines post).isEmpty = false := by
        cases term <;> simp
      rw [tfHeredocBody, if_neg (by simp [hne])]
      have htl := takeLine_append_nl term (joinLines post) hterm
      simp only [htl, hdelim, if_true]
      rw [joinLines]
  | cons p pre' ih =>
      intro term post hpost hpre hterm hdelim
      have hp := hpre p (List.mem_cons_self _ _)
      have hpre' : ∀ q ∈ pre', '\n' ∉ q ∧ (trimSpaceGo q == delim) = false :=
        fun q hq => hpre q (List.mem_cons_of_mem _ hq)
      have hne1 : pre' ++ term :: post ≠ [] := by simp
      rw [List.cons_append, joinLines_cons_ne_nil p _ hne1]
      have hne : (p ++ '\n' :: joinLines (pre' ++ term :: post)).isEmpty = false := by
        cases p <;> simp
      rw [tfHeredocBody, if_neg (by simp [hne])]
      have htl := takeLine_append_nl p (joinLines (pre' ++ term :: post)) hp.1
      simp only [htl, hp.2, Bool.false_eq_true, if_false]
      split
      · rename_i r2 hr
        rw [htl] at hr
        simp only [List.cons.injEq] at hr
        obtain ⟨-, hr2⟩ := hr
        subst hr2
        rw [ih term post hpost hpre' hterm hdelim]
        simp only []
        rw [List.cons_append, joinLines_cons_ne_nil p _ (by simp)]
        simp [List.append_assoc]
      · rename_i hcatch
        have : (takeLine (p ++ '\n' :: joinLines (pre' ++ term :: post))).2 =
            '\n' :: joinLines (pre' ++ term :: post) := by rw [htl]
        exact absurd this (by simpa using hcatch (joinLines (pre' ++ term :: post)))

theorem splitLines_nlFree_eq (a : List Char) (ha : '\n' ∉ a) : splitLines a = [a] := by
  induction a with
  | nil => simp [splitLines]
  | cons c rest ih =>
      have hc : c ≠ '\n' := fun h => ha (h ▸ List.mem_cons_self _ _)
      have hrest : '\n' ∉ rest := fun h => ha (List.mem_cons_of_mem _ h)
      rw [splitLines, if_neg hc, ih hrest]

theorem splitLines_append_nl (a b : List Char) (ha : '\n' ∉ a) :
    splitLines (a ++ '\n' :: b) = a :: splitLines b := by
  induction a with
  | nil => simp [splitLines]
  | cons c rest ih =>
      have hc : c ≠ '\n' := fun h => ha (h ▸ List.mem_cons_self _ _)
      have hrest : '\n' ∉ rest := fun h => ha (List.mem_cons_of_mem _ h)
      rw [List.cons_append, splitLines, if_neg hc, ih hrest]

theorem splitLines_joinLines (ls : List (List Char)) (hne : ls ≠ [])
    (hnl : ∀ p ∈ ls, '\n' ∉ p) : splitLines (joinLines ls) = ls := by
  induction ls with
  | nil => exact absurd rfl hne
  | cons l rest ih =>
      cases rest with
      | nil =>
          rw [joinLines]
          exact splitLines_nlFree_eq l (hnl l (List.mem_cons_self _ _))
      | cons r rs =>
          rw [joinLines_cons_ne_nil l _ (by simp)]
          rw [splitLines_append_nl l _ (hnl l (List.mem_cons_self _ _))]
          rw [ih (by simp) (fun p hp => hnl p (List.mem_cons_of_mem _ hp))]

theorem driveLines_stateless (g : List Char → List Char) :
    ∀ ls : List (List Char),
      driveLines (fun _ line => (g line, false, ())) () ls = joinLines (ls.map g) := by
  intro ls
  induction ls with
  | nil => simp [driveLines, joinLines]
  | cons l rest ih =>
      rw [driveLines]
      cases rest with
      | nil => simp [joinLines, driveLines]
      | cons r rs =>
          simp only [List.isEmpty_cons, Bool.false_eq_true, if_false, List.map_cons]
          rw [joinLines_cons_ne_nil _ _ (by simp)]
          simp only [List.map_cons] at ih
          rw [← ih]
          simp

theorem removeYAMLComments_linesClean (content : List Char) :
    (splitLines (removeYAMLComments content)).all endsClean = true := by
  unfold removeYAMLComments
  rw [driveLines_stateless (fun line => trimRightST (yamlScan false (Char.ofNat 0) false line))
    (splitLines content)]
  rw [splitLines_joinLines _ (by
      intro h
      exact splitLines_ne_nil content (List.map_eq_nil_iff.mp h))
    (by
      intro p hp
      obtain ⟨line, hline, rfl⟩ := List.mem_map.mp hp
      exact yamlLine_nlFree () line (splitLines_nlFree content line hline))]
  rw [List.all_eq_true]
  intro p hp
  obtain ⟨line, hline, rfl⟩ := List.mem_map.mp hp
  exact trimRightST_endsClean _

theorem goLine_normal_clean (line : List Char) :
    endsClean ((goLine (false, false) line).1) = true := by
  rw [goLine]
  simp only [Bool.false_eq_true, if_false]
  rw [goLineRest]
  simp only [Bool.false_eq_true, if_false]
  rw [goLineScan]
  cases h : goScan false false false false line with
  | mk cl e => cases e <;> simp [trimRightST_endsClean]

theorem jsLine_normal_clean (line : List Char) :
    endsClean ((jsLine (false, false) line).1) = true := by
  rw [jsLine]
  simp only [Bool.false_eq_true, if_false]
  rw [jsLineScan]
  cases h : jsScan false false (Char.ofNat 0) false line with
  | mk cl e =>
      cases e <;> simp [trimRightST_endsClean] <;> decide

theorem pyLine_normal_clean (line : List Char) :
    endsClean ((pyLine none line).1) = true := by
  rw [pyLine]
  cases h : pyScan false (Char.ofNat 0) false line with
  | mk cl m =>
      cases m <;> simp [trimRightST_endsClean] <;> decide

theorem rustLine_normal_clean (line : List Char) :
    endsClean ((rustLine (false, 0) line).1) = true := by
  rw [rustLine]
  simp only [Bool.false_eq_true, if_false]
  rw [rustLineScan]
  cases h : rustScan false false false false line with
  | mk cl e => cases e <;> simp [trimRightST_endsClean]

/-! ## Idempotence of the YAML remover -/

theorem trimRightST_cons (c : Char) (x : List Char) :
    trimRightST (c :: x) =
      if trimRightST x = [] ∧ isSpaceTab c = true then [] else c :: trimRightST x := by
  unfold trimRightST
  rw [List.reverse_cons, List.dropWhile_append]
  by_cases hx : (x.reverse.dropWhile isSpaceTab).isEmpty = true
  · rw [if_pos hx]
    have hx' : (x.reverse.dropWhile isSpaceTab).reverse = [] := by
      rw [List.isEmpty_iff.mp hx]; rfl
    by_cases hc : isSpaceTab c = true
    · rw [if_pos ⟨hx', hc⟩]
      simp [List.dropWhile, hc]
    · rw [if_neg (by simp [hc])]
      simp [List.dropWhile, hc, hx']
  · rw [if_neg hx]
    have hx' : ¬((x.reverse.dropWhile isSpaceTab).reverse = []) := by
      intro h
      exact hx (by
        rw [List.isEmpty_iff]
        have := congrArg List.reverse h
        simpa using this)
    rw [if_neg (by simp [hx'])]
    simp

theorem headD_of_pref (p l : List Char) (a : Char) (hp : p <+: l) (hne : p ≠ []) :
    p.headD a = l.headD a := by
  cases p with
  | nil => exact absurd rfl hne
  | cons c t =>
      obtain ⟨r, hr⟩ := hp
      rw [← hr]
      rfl

theorem trimRightST_headD (l : List Char) (a : Char) (hne : trimRightST l ≠ []) :
    (trimRightST l).headD a = l.headD a :=
  headD_of_pref _ _ _ (trimRightST_pref l) hne

/-- Scanning a cleaned-and-trimmed YAML line again (from the same state)
reproduces it unchanged: removal and trimming only ever cut at a `#` seen
outside a string or at trailing whitespace, and the replay makes the same
decisions at every remaining position. -/
theorem yamlScan_trim_fixed : ∀ (st : Bool) (d : Char) (e : Bool) (l : List Char),
    yamlScan st d e (trimRightST (yamlScan st d e l)) = trimRightST (yamlScan st d e l) := by
  intro st d e l
  induction st, d, e, l using yamlScan.induct with
  | case1 => simp [yamlScan, trimRightST]
  | case2 inString delim c rest ih =>
      have hout : yamlScan inString delim true (c :: rest) =
          c :: yamlScan inString delim false rest := by
        rw [yamlScan]; simp
      rw [hout, trimRightST_cons]
      split
      · simp [yamlScan]
      · rw [yamlScan]
        simp only [if_true]
        rw [ih]
  | case3 inString delim escaped c rest h1 h2 ih =>
      have hout : yamlScan inString delim escaped (c :: rest) =
          c :: yamlScan inString delim true rest := by
        rw [yamlScan]
        simp only [h1, h2, if_true, Bool.false_eq_true, if_false]
      rw [hout, trimRightST_cons]
      split
      · simp [yamlScan]
      · rw [yamlScan]
        simp only [h1, h2, if_true, Bool.false_eq_true, if_false]
        rw [ih]
  | case4 inString delim escaped c rest h1 h2 h3 ih =>
      have hout : yamlScan inString delim escaped (c :: rest) =
          c :: '\'' :: yamlScan inString delim false rest.tail := by
        rw [yamlScan]
        simp only [h1, h2, h3, if_true, Bool.false_eq_true, if_false]
      have hq : isSpaceTab '\'' = false := by decide
      rw [hout, trimRightST_cons]
      split
      · rename_i hcut
        rw [trimRightST_cons, if_neg (by simp [hq])] at hcut
        simp at hcut
      · rw [trimRightST_cons, if_neg (by simp [hq])]
        rw [yamlScan]
        have h3' : (inString && delim == '\'' && c == '\'' &&
            ('\'' :: trimRightST (yamlScan inString delim false rest.tail)).headD ' ' == '\'')
            = true := by
          have := h3
          simp only [Bool.and_assoc] at this ⊢
          simp_all [List.headD]
        simp only [h1, h2, h3', if_true, Bool.false_eq_true, if_false]
        simp only [List.tail_cons]
        rw [ih]
  | case5 inString delim escaped c rest h1 h2 h3 h4 ih =>
      have hout : yamlScan inString delim escaped (c :: rest) =
          c :: yamlScan true c false rest := by
        rw [yamlScan]
        simp only [h1, h2, h3, h4, if_true, Bool.false_eq_true, if_false]
      have hstr : inString = false := by
        cases hsi : inString
        · rfl
        · rw [hsi] at h4; simp at h4
      rw [hout, trimRightST_cons]
      split
      · simp [yamlScan]
      · rw [yamlScan]
        have hdb : (inString && delim == '\'' && c == '\'' &&
            (trimRightST (yamlScan true c false rest)).headD ' ' == '\'') = false := by
          simp [hstr]
        simp only [h1, h2, hdb, h4, if_true, Bool.false_eq_true, if_false]
        rw [ih]
  | case6 inString delim escaped c rest h1 h2 h3 h4 h5 ih =>
      have hout : yamlScan inString delim escaped (c :: rest) =
          c :: yamlScan false (Char.ofNat 0) false rest := by
        rw [yamlScan]
        simp only [h1, h2, h3, h4, h5, if_true, Bool.false_eq_true, if_false]
      rw [hout, trimRightST_cons]
      split
      · simp [yamlScan]
      · rename_i hcut
        have hlook : (inString && delim == '\'' && c == '\'' &&
            (trimRightST (yamlScan false (Char.ofNat 0) false rest)).headD ' ' == '\'')
            = false := by
          by_cases hd : (inString && delim == '\'' && c == '\'') = true
          · have hrest : (rest.headD ' ' == '\'') = false := by
              by_cases hr : (rest.headD ' ' == '\'') = true
              · exact absurd (by rw [hd, hr]; rfl) h3
              · simpa using hr
            have hl : ((trimRightST
                (yamlScan false (Char.ofNat 0) false rest)).headD ' ' == '\'') = false := by
              by_cases htr : trimRightST (yamlScan false (Char.ofNat 0) false rest) = []
              · rw [htr]
                simpa using (by decide : ((' ' : Char) == '\'') = false)
              · have hsc : yamlScan false (Char.ofNat 0) false rest ≠ [] := by
                  intro hsc
                  rw [hsc] at htr
                  exact htr (by rfl)
                have e1 : (trimRightST (yamlScan false (Char.ofNat 0) false rest)).headD ' ' =
                    (yamlScan false (Char.ofNat 0) false rest).headD ' ' :=
                  trimRightST_headD _ ' ' htr
                have e2 : (yamlScan false (Char.ofNat 0) false rest).headD ' ' =
                    rest.headD ' ' :=
                  headD_of_pref _ _ ' ' (yamlScan_pref false (Char.ofNat 0) false rest) hsc
                rw [e1, e2]
                exact hrest
            simp only [hl, Bool.and_false]
          · have hd' : (inString && delim == '\'' && c == '\'') = false := by
              simpa using hd
            simp [hd']
        rw [yamlScan]
        simp only [h1, h2, hlook, h4, h5, if_true, Bool.false_eq_true, if_false]
        rw [ih]
  | case7 delim escaped c rest h1 h2 h3 h4 h5 ih =>
      have hout : yamlScan true delim escaped (c :: rest) =
          c :: yamlScan true delim false rest := by
        rw [yamlScan]
        simp only [h1, h2, h3, h4, h5, if_true, Bool.false_eq_true, if_false]
      rw [hout, trimRightST_cons]
      split
      · simp [yamlScan]
      · have hcd : (c == delim) = false := by
          by_cases hc : (c == delim) = true
          · exact absurd (by simpa using hc) h5
          · simpa using hc
        have hdb : (true && delim == '\'' && c == '\'' &&
            (trimRightST (yamlScan true delim false rest)).headD ' ' == '\'') = false := by
          by_cases hdq : (delim == '\'') = true
          · have : (c == '\'') = false := by
              have hd' : delim = '\'' := by simpa using hdq
              rw [hd']  at hcd
              exact hcd
            simp [this]
          · have : (delim == '\'') = false := by simpa using hdq
            simp [this]
        rw [yamlScan]
        simp only [h1, h2, hdb, h4, h5, if_true, Bool.false_eq_true, if_false]
        rw [ih]
  | case8 inString delim escaped c rest h1 h2 h3 h4 h5 h6 h7 =>
      have hout : yamlScan inString delim escaped (c :: rest) = [] := by
        rw [yamlScan]
        simp_all
      rw [hout]
      simp [yamlScan, trimRightST]
  | case9 inString delim escaped c rest h1 h2 h3 h4 h5 h6 h7 ih =>
      have hstr : inString = false := by
        cases hsi : inString
        · rfl
        · exact absurd hsi h6
      subst hstr
      have h4' : (c == '"' || c == '\'') = false := by
        simpa using h4
      have hout : yamlScan false delim escaped (c :: rest) =
          c :: yamlScan false delim false rest := by
        rw [yamlScan]
        simp only [h1, if_true, Bool.false_eq_true, if_false, Bool.false_and, Bool.and_false,
          Bool.not_false, Bool.and_true, h4', h7]
      rw [hout, trimRightST_cons]
      split
      · simp [yamlScan]
      · rw [yamlScan]
        simp only [h1, if_true, Bool.false_eq_true, if_false, Bool.false_and, Bool.and_false,
          Bool.not_false, Bool.and_true, h4', h7]
        rw [ih]

theorem dropWhile_idem (p : Char → Bool) (l : List Char) :
    (l.dropWhile p).dropWhile p = l.dropWhile p := by
  induction l with
  | nil => rfl
  | cons c rest ih =>
      simp only [List.dropWhile]
      split
      · exact ih
      · rename_i h
        simp [List.dropWhile, h]

theorem trimRightST_idem (l : List Char) :
    trimRightST (trimRightST l) = trimRightST l := by
  unfold trimRightST
  rw [List.reverse_reverse, dropWhile_idem]

theorem removeYAMLComments_idem (content : List Char) :
    removeYAMLComments (removeYAMLComments content) = removeYAMLComments content := by
  unfold removeYAMLComments
  rw [driveLines_stateless (fun line => trimRightST (yamlScan false (Char.ofNat 0) false line)),
    driveLines_stateless (fun line => trimRightST (yamlScan false (Char.ofNat 0) false line))]
  rw [splitLines_joinLines _ (by
      intro h
      exact splitLines_ne_nil content (List.map_eq_nil_iff.mp h))
    (by
      intro p hp
      obtain ⟨line, hline, rfl⟩ := List.mem_map.mp hp
      exact yamlLine_nlFree () line (splitLines_nlFree content line hline))]
  rw [List.map_map]
  have hg : (fun line => trimRightST (yamlScan false (Char.ofNat 0) false line)) ∘
      (fun line => trimRightST (yamlScan false (Char.ofNat 0) false line)) =
      (fun line => trimRightST (yamlScan false (Char.ofNat 0) false line)) := by
    funext line
    simp only [Function.comp_apply]
    rw [yamlScan_trim_fixed, trimRightST_idem]
  rw [hg]


/-! ## Idempotence of the Go remover

Rescanning the cleaned output of `removeGoComments` (with the block-comment
flag cleared, since an emitted line never retains an unclosed comment opener)
reproduces it character for character. -/

theorem mem_dropWhile {c : Char} (p : Char → Bool) {l : List Char} (h : c ∈ l)
    (hns : p c = false) : c ∈ l.dropWhile p := by
  induction l with
  | nil => simp at h
  | cons a t ih =>
      rw [List.dropWhile]
      rcases List.mem_cons.mp h with hca | hct
      · subst hca
        simp [hns]
      · split
        · exact ih hct
        · exact List.mem_cons_of_mem _ hct

theorem mem_trimRightST {c : Char} {l : List Char} (h : c ∈ l)
    (hns : isSpaceTab c = false) : c ∈ trimRightST l := by
  unfold trimRightST
  rw [List.mem_reverse]
  exact mem_dropWhile isSpaceTab (List.mem_reverse.mpr h) hns

theorem idxOfSub_singleton_isSome (a : Char) (l : List Char) :
    (idxOfSub [a] l).isSome = true ↔ a ∈ l := by
  induction l with
  | nil => simp [idxOfSub]
  | cons c rest ih =>
      rw [idxOfSub]
      by_cases hac : (a == c) = true
      · have hl : leadsWith [a] (c :: rest) = true := by
          simp [leadsWith, hac]
        simp only [hl, if_true, Option.isSome_some, true_iff]
        exact List.mem_cons.mpr (Or.inl (beq_iff_eq.mp hac))
      · have hl : leadsWith [a] (c :: rest) = false := by
          simp [leadsWith, hac]
        simp only [hl, Bool.false_eq_true, if_false, Option.isSome_map, Option.isSome_map]
        rw [show ∀ o : Option Nat, (Option.map (fun x => x + 1) o).isSome = o.isSome from
          fun o => by cases o <;> rfl]
        rw [ih, List.mem_cons]
        constructor
        · exact fun hm => Or.inr hm
        · intro hm
          rcases hm with h | h
          · exact absurd (beq_iff_eq.mpr h) hac
          · exact h

theorem idxOfSub_singleton_some : ∀ (a : Char) (l : List Char) (i : Nat),
    idxOfSub [a] l = some i →
      i < l.length ∧ a ∉ l.take i ∧ l.take (i + 1) = l.take i ++ [a] := by
  intro a l
  induction l with
  | nil => intro i h; simp [idxOfSub] at h
  | cons c rest ih =>
      intro i h
      rw [idxOfSub] at h
      by_cases hac : (a == c) = true
      · have hl : leadsWith [a] (c :: rest) = true := by simp [leadsWith, hac]
        rw [hl] at h
        simp only [if_true] at h
        have hi : i = 0 := by
          have := Option.some.inj h
          omega
        subst hi
        refine ⟨by simp, by simp, ?_⟩
        simp [List.take_succ_cons, beq_iff_eq.mp hac]
      · have hl : leadsWith [a] (c :: rest) = false := by simp [leadsWith, hac]
        rw [hl] at h
        simp only [Bool.false_eq_true, if_false] at h
        cases hr : idxOfSub [a] rest with
        | none => rw [hr] at h; simp at h
        | some j =>
            rw [hr] at h
            simp only [Option.map] at h
            have hij : i = j + 1 := (Option.some.inj h).symm
            subst hij
            obtain ⟨hb, hnm, htk⟩ := ih j hr
            refine ⟨by simp only [List.length_cons]; omega, ?_, ?_⟩
            · simp only [List.take_succ_cons, List.mem_cons]
              rintro (hca | hm)
              · exact absurd (beq_iff_eq.mpr hca) hac
              · exact hnm hm
            · simp [List.take_succ_cons, htk]

theorem idxOfSub_singleton_append (a : Char) (p z : List Char) (hp : a ∉ p) :
    idxOfSub [a] (p ++ a :: z) = some p.length := by
  induction p with
  | nil =>
      rw [List.nil_append, idxOfSub]
      have hl : leadsWith [a] (a :: z) = true := by simp [leadsWith]
      rw [hl]
      rfl
  | cons c t ih =>
      have hac : (a == c) = false := by
        rw [Bool.eq_false_iff]
        intro hx
        exact hp (List.mem_cons.mpr (Or.inl (beq_iff_eq.mp hx)))
      rw [List.cons_append, idxOfSub]
      have hl : leadsWith [a] (c :: (t ++ a :: z)) = false := by simp [leadsWith, hac]
      rw [hl]
      simp only [Bool.false_eq_true, if_false]
      rw [ih (fun hm => hp (List.mem_cons_of_mem _ hm))]
      rfl

theorem goScanE1 (s1 s2 s3 s4 : Bool) : goScan s1 s2 s3 s4 [] = ([], .normal) := by
  rw [goScan]

theorem goScanE2 (s1 s2 s3 : Bool) (c : Char) (rest : List Char) :
    goScan s1 s2 s3 true (c :: rest) =
      (c :: (goScan s1 s2 s3 false rest).1, (goScan s1 s2 s3 false rest).2) := by
  rw [goScan]
  simp

theorem goScanE3 (s1 s2 s3 : Bool) (c : Char) (rest : List Char)
    (hb : (c == '\\' && (s1 || s3)) = true) :
    goScan s1 s2 s3 false (c :: rest) =
      (c :: (goScan s1 s2 s3 true rest).1, (goScan s1 s2 s3 true rest).2) := by
  rw [goScan]
  simp only [Bool.false_eq_true, if_false, hb, if_true]

theorem goScanE4 (s1 s2 s3 : Bool) (c : Char) (rest : List Char)
    (hb : (c == '\\' && (s1 || s3)) = false)
    (ht : (c == '`' && !s1 && !s3) = true) (hr : s2 = false)
    (hlk : (idxOfSub ['`'] rest).isSome = true) :
    goScan s1 s2 s3 false (c :: rest) =
      (c :: (goScan s1 true s3 false rest).1, (goScan s1 true s3 false rest).2) := by
  rw [goScan]
  simp only [Bool.false_eq_true, if_false, hb, ht, if_true, hr, Bool.not_false, hlk]

theorem goScanE5 (s1 s2 s3 : Bool) (c : Char) (rest : List Char)
    (hb : (c == '\\' && (s1 || s3)) = false)
    (ht : (c == '`' && !s1 && !s3) = true) (hr : s2 = false)
    (hlk : (idxOfSub ['`'] rest).isSome = false) :
    goScan s1 s2 s3 false (c :: rest) = (c :: rest, .raw) := by
  rw [goScan]
  simp only [Bool.false_eq_true, if_false, hb, ht, if_true, hr, Bool.not_false, hlk]

theorem goScanE6 (s1 s2 s3 : Bool) (c : Char) (rest : List Char)
    (hb : (c == '\\' && (s1 || s3)) = false)
    (ht : (c == '`' && !s1 && !s3) = true) (hr : s2 = true) :
    goScan s1 s2 s3 false (c :: rest) =
      (c :: (goScan s1 false s3 false rest).1, (goScan s1 false s3 false rest).2) := by
  rw [goScan]
  simp only [Bool.false_eq_true, if_false, hb, ht, if_true, hr, Bool.not_true]

theorem goScanE7 (s1 s2 s3 : Bool) (c : Char) (rest : List Char)
    (hb : (c == '\\' && (s1 || s3)) = false)
    (ht : (c == '`' && !s1 && !s3) = false)
    (hq : (c == '\'' && !s1 && !s2) = true) :
    goScan s1 s2 s3 false (c :: rest) =
      (c :: (goScan s1 s2 (!s3) false rest).1, (goScan s1 s2 (!s3) false rest).2) := by
  rw [goScan]
  simp only [Bool.false_eq_true, if_false, hb, ht, hq, if_true]

theorem goScanE8 (s1 s2 s3 : Bool) (c : Char) (rest : List Char)
    (hb : (c == '\\' && (s1 || s3)) = false)
    (ht : (c == '`' && !s1 && !s3) = false)
    (hq : (c == '\'' && !s1 && !s2) = false)
    (hd : (c == '"' && !s2 && !s3) = true) :
    goScan s1 s2 s3 false (c :: rest) =
      (c :: (goScan (!s1) s2 s3 false rest).1, (goScan (!s1) s2 s3 false rest).2) := by
  rw [goScan]
  simp only [Bool.false_eq_true, if_false, hb, ht, hq, hd, if_true]

theorem goScanE9 (s1 s2 s3 : Bool) (c : Char) (rest : List Char)
    (hb : (c == '\\' && (s1 || s3)) = false)
    (ht : (c == '`' && !s1 && !s3) = false)
    (hq : (c == '\'' && !s1 && !s2) = false)
    (hd : (c == '"' && !s2 && !s3) = false)
    (hi : (s1 || s2 || s3) = true) :
    goScan s1 s2 s3 false (c :: rest) =
      (c :: (goScan s1 s2 s3 false rest).1, (goScan s1 s2 s3 false rest).2) := by
  rw [goScan]
  simp only [Bool.false_eq_true, if_false, hb, ht, hq, hd, hi, if_true]

theorem goScanE10 (s1 s2 s3 : Bool) (c : Char) (rest : List Char)
    (hb : (c == '\\' && (s1 || s3)) = false)
    (ht : (c == '`' && !s1 && !s3) = false)
    (hq : (c == '\'' && !s1 && !s2) = false)
    (hd : (c == '"' && !s2 && !s3) = false)
    (hi : (s1 || s2 || s3) = false)
    (hbc : (c == '/' && rest.headD ' ' == '*') = true)
    (j : Nat) (hj : idxOfSub ['*', '/'] (rest.drop 1) = some j) :
    goScan s1 s2 s3 false (c :: rest) =
      goScan s1 s2 s3 false ((c :: rest).drop (utf8Len ((rest.drop 1).take j) + 4)) := by
  rw [goScan]
  simp only [Bool.false_eq_true, if_false, hb, ht, hq, hd, hi, hbc, if_true, hj]

theorem goScanE11 (s1 s2 s3 : Bool) (c : Char) (rest : List Char)
    (hb : (c == '\\' && (s1 || s3)) = false)
    (ht : (c == '`' && !s1 && !s3) = false)
    (hq : (c == '\'' && !s1 && !s2) = false)
    (hd : (c == '"' && !s2 && !s3) = false)
    (hi : (s1 || s2 || s3) = false)
    (hbc : (c == '/' && rest.headD ' ' == '*') = true)
    (hj : idxOfSub ['*', '/'] (rest.drop 1) = none) :
    goScan s1 s2 s3 false (c :: rest) = ([], .block) := by
  rw [goScan]
  simp only [Bool.false_eq_true, if_false, hb, ht, hq, hd, hi, hbc, if_true, hj]

theorem goScanE12 (s1 s2 s3 : Bool) (c : Char) (rest : List Char)
    (hb : (c == '\\' && (s1 || s3)) = false)
    (ht : (c == '`' && !s1 && !s3) = false)
    (hq : (c == '\'' && !s1 && !s2) = false)
    (hd : (c == '"' && !s2 && !s3) = false)
    (hi : (s1 || s2 || s3) = false)
    (hbc : (c == '/' && rest.headD ' ' == '*') = false)
    (hlc : (c == '/' && rest.headD ' ' == '/') = true) :
    goScan s1 s2 s3 false (c :: rest) = ([], .normal) := by
  rw [goScan]
  simp only [Bool.false_eq_true, if_false, hb, ht, hq, hd, hi, hbc, hlc, if_true]

theorem goScanE13 (s1 s2 s3 : Bool) (c : Char) (rest : List Char)
    (hb : (c == '\\' && (s1 || s3)) = false)
    (ht : (c == '`' && !s1 && !s3) = false)
    (hq : (c == '\'' && !s1 && !s2) = false)
    (hd : (c == '"' && !s2 && !s3) = false)
    (hi : (s1 || s2 || s3) = false)
    (hbc : (c == '/' && rest.headD ' ' == '*') = false)
    (hlc : (c == '/' && rest.headD ' ' == '/') = false) :
    goScan s1 s2 s3 false (c :: rest) =
      (c :: (goScan s1 s2 s3 false rest).1, (goScan s1 s2 s3 false rest).2) := by
  rw [goScan]
  simp only [Bool.false_eq_true, if_false, hb, ht, hq, hd, hi, hbc, hlc, if_true]

/-- Every character the Go line scan emits comes from its input. -/
theorem goScan_mem : ∀ (s1 s2 s3 s4 : Bool) (l : List Char) (a : Char),
    a ∈ (goScan s1 s2 s3 s4 l).1 → a ∈ l := by
  intro s1 s2 s3 s4 l
  induction s1, s2, s3, s4, l using goScan.induct with
  | case1 b1 b2 b3 b4 => intro a hm; simp [goScan] at hm
  | case2 s1 s2 s3 c rest ih =>
      intro a hm
      rw [goScanE2] at hm
      rcases List.mem_cons.mp hm with h | h
      · exact h ▸ List.mem_cons_self _ _
      · exact List.mem_cons_of_mem _ (ih a h)
  | case3 s1 s2 s3 e c rest h1 h2 ih =>
      intro a hm
      have he : e = false := Bool.eq_false_iff.mpr h1
      subst he
      rw [goScanE3 _ _ _ _ _ h2] at hm
      rcases List.mem_cons.mp hm with h | h
      · exact h ▸ List.mem_cons_self _ _
      · exact List.mem_cons_of_mem _ (ih a h)
  | case4 s1 s2 s3 e c rest h1 h2 h3 h4 h5 ih =>
      intro a hm
      have he : e = false := Bool.eq_false_iff.mpr h1
      subst he
      rw [goScanE4 _ _ _ _ _ (Bool.eq_false_iff.mpr h2) h3 (by simpa using h4) h5] at hm
      rcases List.mem_cons.mp hm with h | h
      · exact h ▸ List.mem_cons_self _ _
      · exact List.mem_cons_of_mem _ (ih a h)
  | case5 s1 s2 s3 e c rest h1 h2 h3 h4 h5 =>
      intro a hm
      have he : e = false := Bool.eq_false_iff.mpr h1
      subst he
      rw [goScanE5 _ _ _ _ _ (Bool.eq_false_iff.mpr h2) h3 (by simpa using h4)
        (Bool.eq_false_iff.mpr h5)] at hm
      exact hm
  | case6 s1 s2 s3 e c rest h1 h2 h3 h4 ih =>
      intro a hm
      have he : e = false := Bool.eq_false_iff.mpr h1
      have hr : s2 = true := by
        cases hs : s2
        · exact absurd (by simp [hs]) h4
        · rfl
      subst he
      rw [goScanE6 _ _ _ _ _ (Bool.eq_false_iff.mpr h2) h3 hr] at hm
      rcases List.mem_cons.mp hm with h | h
      · exact h ▸ List.mem_cons_self _ _
      · exact List.mem_cons_of_mem _ (ih a h)
  | case7 s1 s2 s3 e c rest h1 h2 h3 h4 ih =>
      intro a hm
      have he : e = false := Bool.eq_false_iff.mpr h1
      subst he
      rw [goScanE7 _ _ _ _ _ (Bool.eq_false_iff.mpr h2) (Bool.eq_false_iff.mpr h3) h4] at hm
      rcases List.mem_cons.mp hm with h | h
      · exact h ▸ List.mem_cons_self _ _
      · exact List.mem_cons_of_mem _ (ih a h)
  | case8 s1 s2 s3 e c rest h1 h2 h3 h4 h5 ih =>
      intro a hm
      have he : e = false := Bool.eq_false_iff.mpr h1
      subst he
      rw [goScanE8 _ _ _ _ _ (Bool.eq_false_iff.mpr h2) (Bool.eq_false_iff.mpr h3)
        (Bool.eq_false_iff.mpr h4) h5] at hm
      rcases List.mem_cons.mp hm with h | h
      · exact h ▸ List.mem_cons_self _ _
      · exact List.mem_cons_of_mem _ (ih a h)
  | case9 s1 s2 s3 e c rest h1 h2 h3 h4 h5 h6 ih =>
      intro a hm
      have he : e = false := Bool.eq_false_iff.mpr h1
      subst he
      rw [goScanE9 _ _ _ _ _ (Bool.eq_false_iff.mpr h2) (Bool.eq_false_iff.mpr h3)
        (Bool.eq_false_iff.mpr h4) (Bool.eq_false_iff.mpr h5) h6] at hm
      rcases List.mem_cons.mp hm with h | h
      · exact h ▸ List.mem_cons_self _ _
      · exact List.mem_cons_of_mem _ (ih a h)
  | case10 s1 s2 s3 e c rest h1 h2 h3 h4 h5 h6 h7 j hj ih =>
      intro a hm
      have he : e = false := Bool.eq_false_iff.mpr h1
      subst he
      rw [goScanE10 _ _ _ _ _ (Bool.eq_false_iff.mpr h2) (Bool.eq_false_iff.mpr h3)
        (Bool.eq_false_iff.mpr h4) (Bool.eq_false_iff.mpr h5) (Bool.eq_false_iff.mpr h6)
        h7 j hj] at hm
      exact List.drop_subset _ _ (ih a hm)
  | case11 s1 s2 s3 e c rest h1 h2 h3 h4 h5 h6 h7 hj =>
      intro a hm
      have he : e = false := Bool.eq_false_iff.mpr h1
      subst he
      rw [goScanE11 _ _ _ _ _ (Bool.eq_false_iff.mpr h2) (Bool.eq_false_iff.mpr h3)
        (Bool.eq_false_iff.mpr h4) (Bool.eq_false_iff.mpr h5) (Bool.eq_false_iff.mpr h6)
        h7 hj] at hm
      simp at hm
  | case12 s1 s2 s3 e c rest h1 h2 h3 h4 h5 h6 h7 h8 =>
      intro a hm
      have he : e = false := Bool.eq_false_iff.mpr h1
      subst he
      rw [goScanE12 _ _ _ _ _ (Bool.eq_false_iff.mpr h2) (Bool.eq_false_iff.mpr h3)
        (Bool.eq_false_iff.mpr h4) (Bool.eq_false_iff.mpr h5) (Bool.eq_false_iff.mpr h6)
        (Bool.eq_false_iff.mpr h7) h8] at hm
      simp at hm
  | case13 s1 s2 s3 e c rest h1 h2 h3 h4 h5 h6 h7 h8 ih =>
      intro a hm
      have he : e = false := Bool.eq_false_iff.mpr h1
      subst he
      rw [goScanE13 _ _ _ _ _ (Bool.eq_false_iff.mpr h2) (Bool.eq_false_iff.mpr h3)
        (Bool.eq_false_iff.mpr h4) (Bool.eq_false_iff.mpr h5) (Bool.eq_false_iff.mpr h6)
        (Bool.eq_false_iff.mpr h7) (Bool.eq_false_iff.mpr h8)] at hm
      rcases List.mem_cons.mp hm with h | h
      · exact h ▸ List.mem_cons_self _ _
      · exact List.mem_cons_of_mem _ (ih a h)

/-- If the Go line scan ends inside a multi-line raw string, the emitted text
contains the opening backtick. -/
theorem goScan_raw_mem : ∀ (s1 s2 s3 s4 : Bool) (l : List Char),
    (goScan s1 s2 s3 s4 l).2 = .raw → '`' ∈ (goScan s1 s2 s3 s4 l).1 := by
  intro s1 s2 s3 s4 l
  induction s1, s2, s3, s4, l using goScan.induct with
  | case1 b1 b2 b3 b4 => intro hx; simp [goScan] at hx
  | case2 s1 s2 s3 c rest ih =>
      intro hx
      rw [goScanE2] at hx ⊢
      exact List.mem_cons_of_mem _ (ih hx)
  | case3 s1 s2 s3 e c rest h1 h2 ih =>
      intro hx
      have he : e = false := Bool.eq_false_iff.mpr h1
      subst he
      rw [goScanE3 _ _ _ _ _ h2] at hx ⊢
      exact List.mem_cons_of_mem _ (ih hx)
  | case4 s1 s2 s3 e c rest h1 h2 h3 h4 h5 ih =>
      intro hx
      have he : e = false := Bool.eq_false_iff.mpr h1
      subst he
      have hc : c = '`' := by
        simp only [Bool.and_eq_true, beq_iff_eq] at h3
        exact h3.1.1
      rw [goScanE4 _ _ _ _ _ (Bool.eq_false_iff.mpr h2) h3 (by simpa using h4) h5]
      exact hc ▸ List.mem_cons_self _ _
  | case5 s1 s2 s3 e c rest h1 h2 h3 h4 h5 =>
      intro hx
      have he : e = false := Bool.eq_false_iff.mpr h1
      subst he
      have hc : c = '`' := by
        simp only [Bool.and_eq_true, beq_iff_eq] at h3
        exact h3.1.1
      rw [goScanE5 _ _ _ _ _ (Bool.eq_false_iff.mpr h2) h3 (by simpa using h4)
        (Bool.eq_false_iff.mpr h5)]
      exact hc ▸ List.mem_cons_self _ _
  | case6 s1 s2 s3 e c rest h1 h2 h3 h4 ih =>
      intro hx
      have he : e = false := Bool.eq_false_iff.mpr h1
      have hr : s2 = true := by
        cases hs : s2
        · exact absurd (by simp [hs]) h4
        · rfl
      subst he
      have hc : c = '`' := by
        simp only [Bool.and_eq_true, beq_iff_eq] at h3
        exact h3.1.1
      rw [goScanE6 _ _ _ _ _ (Bool.eq_false_iff.mpr h2) h3 hr]
      exact hc ▸ List.mem_cons_self _ _
  | case7 s1 s2 s3 e c rest h1 h2 h3 h4 ih =>
      intro hx
      have he : e = false := Bool.eq_false_iff.mpr h1
      subst he
      rw [goScanE7 _ _ _ _ _ (Bool.eq_false_iff.mpr h2) (Bool.eq_false_iff.mpr h3) h4] at hx ⊢
      exact List.mem_cons_of_mem _ (ih hx)
  | case8 s1 s2 s3 e c rest h1 h2 h3 h4 h5 ih =>
      intro hx
      have he : e = false := Bool.eq_false_iff.mpr h1
      subst he
      rw [goScanE8 _ _ _ _ _ (Bool.eq_false_iff.mpr h2) (Bool.eq_false_iff.mpr h3)
        (Bool.eq_false_iff.mpr h4) h5] at hx ⊢
      exact List.mem_cons_of_mem _ (ih hx)
  | case9 s1 s2 s3 e c rest h1 h2 h3 h4 h5 h6 ih =>
      intro hx
      have he : e = false := Bool.eq_false_iff.mpr h1
      subst he
      rw [goScanE9 _ _ _ _ _ (Bool.eq_false_iff.mpr h2) (Bool.eq_false_iff.mpr h3)
        (Bool.eq_false_iff.mpr h4) (Bool.eq_false_iff.mpr h5) h6] at hx ⊢
      exact List.mem_cons_of_mem _ (ih hx)
  | case10 s1 s2 s3 e c rest h1 h2 h3 h4 h5 h6 h7 j hj ih =>
      intro hx
      have he : e = false := Bool.eq_false_iff.mpr h1
      subst he
      rw [goScanE10 _ _ _ _ _ (Bool.eq_false_iff.mpr h2) (Bool.eq_false_iff.mpr h3)
        (Bool.eq_false_iff.mpr h4) (Bool.eq_false_iff.mpr h5) (Bool.eq_false_iff.mpr h6)
        h7 j hj] at hx ⊢
      exact ih hx
  | case11 s1 s2 s3 e c rest h1 h2 h3 h4 h5 h6 h7 hj =>
      intro hx
      have he : e = false := Bool.eq_false_iff.mpr h1
      subst he
      rw [goScanE11 _ _ _ _ _ (Bool.eq_false_iff.mpr h2) (Bool.eq_false_iff.mpr h3)
        (Bool.eq_false_iff.mpr h4) (Bool.eq_false_iff.mpr h5) (Bool.eq_false_iff.mpr h6)
        h7 hj] at hx
      simp at hx
  | case12 s1 s2 s3 e c rest h1 h2 h3 h4 h5 h6 h7 h8 =>
      intro hx
      have he : e = false := Bool.eq_false_iff.mpr h1
      subst he
      rw [goScanE12 _ _ _ _ _ (Bool.eq_false_iff.mpr h2) (Bool.eq_false_iff.mpr h3)
        (Bool.eq_false_iff.mpr h4) (Bool.eq_false_iff.mpr h5) (Bool.eq_false_iff.mpr h6)
        (Bool.eq_false_iff.mpr h7) h8] at hx
      simp at hx
  | case13 s1 s2 s3 e c rest h1 h2 h3 h4 h5 h6 h7 h8 ih =>
      intro hx
      have he : e = false := Bool.eq_false_iff.mpr h1
      subst he
      rw [goScanE13 _ _ _ _ _ (Bool.eq_false_iff.mpr h2) (Bool.eq_false_iff.mpr h3)
        (Bool.eq_false_iff.mpr h4) (Bool.eq_false_iff.mpr h5) (Bool.eq_false_iff.mpr h6)
        (Bool.eq_false_iff.mpr h7) (Bool.eq_false_iff.mpr h8)] at hx ⊢
      exact List.mem_cons_of_mem _ (ih hx)

/-- Scanning in raw-string mode emits the closing backtick if the input has
one: raw-string content is copied verbatim up to and including the close. -/
theorem goScan_rawmode_mem : ∀ (s1 s2 s3 s4 : Bool) (l : List Char),
    s2 = true → '`' ∈ l → '`' ∈ (goScan s1 s2 s3 s4 l).1 := by
  intro s1 s2 s3 s4 l
  induction s1, s2, s3, s4, l using goScan.induct with
  | case1 b1 b2 b3 b4 => intro hs hm; simp at hm
  | case2 s1 s2 s3 c rest ih =>
      intro hs hm
      rw [goScanE2]
      rcases List.mem_cons.mp hm with h | h
      · exact h ▸ List.mem_cons_self _ _
      · exact List.mem_cons_of_mem _ (ih hs h)
  | case3 s1 s2 s3 e c rest h1 h2 ih =>
      intro hs hm
      have he : e = false := Bool.eq_false_iff.mpr h1
      subst he
      rw [goScanE3 _ _ _ _ _ h2]
      rcases List.mem_cons.mp hm with h | h
      · exact h ▸ List.mem_cons_self _ _
      · exact List.mem_cons_of_mem _ (ih hs h)
  | case4 s1 s2 s3 e c rest h1 h2 h3 h4 h5 ih =>
      intro hs hm
      rw [hs] at h4
      simp at h4
  | case5 s1 s2 s3 e c rest h1 h2 h3 h4 h5 =>
      intro hs hm
      rw [hs] at h4
      simp at h4
  | case6 s1 s2 s3 e c rest h1 h2 h3 h4 ih =>
      intro hs hm
      have he : e = false := Bool.eq_false_iff.mpr h1
      subst he
      have hc : c = '`' := by
        simp only [Bool.and_eq_true, beq_iff_eq] at h3
        exact h3.1.1
      rw [goScanE6 _ _ _ _ _ (Bool.eq_false_iff.mpr h2) h3 hs]
      exact hc ▸ List.mem_cons_self _ _
  | case7 s1 s2 s3 e c rest h1 h2 h3 h4 ih =>
      intro hs hm
      have : (c == '\'' && !s1 && !s2) = false := by simp [hs]
      exact absurd h4 (by simp [this])
  | case8 s1 s2 s3 e c rest h1 h2 h3 h4 h5 ih =>
      intro hs hm
      have : (c == '"' && !s2 && !s3) = false := by simp [hs]
      exact absurd h5 (by simp [this])
  | case9 s1 s2 s3 e c rest h1 h2 h3 h4 h5 h6 ih =>
      intro hs hm
      have he : e = false := Bool.eq_false_iff.mpr h1
      subst he
      rw [goScanE9 _ _ _ _ _ (Bool.eq_false_iff.mpr h2) (Bool.eq_false_iff.mpr h3)
        (Bool.eq_false_iff.mpr h4) (Bool.eq_false_iff.mpr h5) h6]
      rcases List.mem_cons.mp hm with h | h
      · exact h ▸ List.mem_cons_self _ _
      · exact List.mem_cons_of_mem _ (ih hs h)
  | case10 s1 s2 s3 e c rest h1 h2 h3 h4 h5 h6 h7 j hj ih =>
      intro hs hm
      exact absurd (by simp [hs]) h6
  | case11 s1 s2 s3 e c rest h1 h2 h3 h4 h5 h6 h7 hj =>
      intro hs hm
      exact absurd (by simp [hs]) h6
  | case12 s1 s2 s3 e c rest h1 h2 h3 h4 h5 h6 h7 h8 =>
      intro hs hm
      exact absurd (by simp [hs]) h6
  | case13 s1 s2 s3 e c rest h1 h2 h3 h4 h5 h6 h7 h8 ih =>
      intro hs hm
      exact absurd (by simp [hs]) h6

/-- Exit state of the second pass over a cleaned Go line: a line that ended
inside a block comment was emitted without the comment opener, so rescanning
it ends in `Normal`; the other exits replay themselves. -/
def goExitRel : GoExit → GoExit
  | .block => .normal
  | e => e

/-- A Go line scan either emits nothing or emits its first input character
first, provided that character is not a `/` (the only character whose branch
can skip ahead). -/
theorem goScan_head (s1 s2 s3 s4 : Bool) (c2 : Char) (rest2 : List Char)
    (hc2 : (c2 == '/') = false) :
    (goScan s1 s2 s3 s4 (c2 :: rest2)).1 = [] ∨
      (goScan s1 s2 s3 s4 (c2 :: rest2)).1.headD ' ' = c2 := by
  cases s4 with
  | true => rw [goScanE2]; right; rfl
  | false =>
    by_cases hb : (c2 == '\\' && (s1 || s3)) = true
    · rw [goScanE3 _ _ _ _ _ hb]; right; rfl
    · by_cases ht : (c2 == '`' && !s1 && !s3) = true
      · cases hs2 : s2 with
        | true =>
            rw [goScanE6 s1 true s3 c2 rest2 (Bool.eq_false_iff.mpr hb) ht rfl]
            right; rfl
        | false =>
          by_cases hlk : (idxOfSub ['`'] rest2).isSome = true
          · rw [goScanE4 s1 false s3 c2 rest2 (Bool.eq_false_iff.mpr hb) ht rfl hlk]
            right; rfl
          · rw [goScanE5 s1 false s3 c2 rest2 (Bool.eq_false_iff.mpr hb) ht rfl
              (Bool.eq_false_iff.mpr hlk)]
            right; rfl
      · by_cases hq : (c2 == '\'' && !s1 && !s2) = true
        · rw [goScanE7 _ _ _ _ _ (Bool.eq_false_iff.mpr hb) (Bool.eq_false_iff.mpr ht) hq]
          right; rfl
        · by_cases hd : (c2 == '"' && !s2 && !s3) = true
          · rw [goScanE8 _ _ _ _ _ (Bool.eq_false_iff.mpr hb) (Bool.eq_false_iff.mpr ht)
              (Bool.eq_false_iff.mpr hq) hd]
            right; rfl
          · by_cases hi : (s1 || s2 || s3) = true
            · rw [goScanE9 _ _ _ _ _ (Bool.eq_false_iff.mpr hb) (Bool.eq_false_iff.mpr ht)
                (Bool.eq_false_iff.mpr hq) (Bool.eq_false_iff.mpr hd) hi]
              right; rfl
            · have hbc : (c2 == '/' && rest2.headD ' ' == '*') = false := by
                rw [hc2, Bool.false_and]
              have hlc : (c2 == '/' && rest2.headD ' ' == '/') = false := by
                rw [hc2, Bool.false_and]
              rw [goScanE13 _ _ _ _ _ (Bool.eq_false_iff.mpr hb) (Bool.eq_false_iff.mpr ht)
                (Bool.eq_false_iff.mpr hq) (Bool.eq_false_iff.mpr hd)
                (Bool.eq_false_iff.mpr hi) hbc hlc]
              right; rfl

theorem goExitRel_eq_normal_of_trim_nil (s1 s2 s3 s4 : Bool) (l : List Char)
    (h : trimRightST (goScan s1 s2 s3 s4 l).1 = []) :
    goExitRel (goScan s1 s2 s3 s4 l).2 = .normal := by
  cases hx : (goScan s1 s2 s3 s4 l).2 with
  | raw =>
      have hm := goScan_raw_mem s1 s2 s3 s4 l hx
      have h2 := mem_trimRightST hm (by decide)
      rw [h] at h2
      simp at h2
  | normal => rfl
  | block => rfl

/-- Rescanning a cleaned-and-trimmed Go line from the same entry state
reproduces it unchanged, and the exit is the original exit up to the
block-comment collapse (`goExitRel`): the removed pieces (comments, trailing
whitespace) leave no trace that could scan differently. -/
theorem goScan_replay : ∀ (s1 s2 s3 s4 : Bool) (l : List Char),
    goScan s1 s2 s3 s4 (trimRightST (goScan s1 s2 s3 s4 l).1) =
      (trimRightST (goScan s1 s2 s3 s4 l).1, goExitRel (goScan s1 s2 s3 s4 l).2) := by
  intro s1 s2 s3 s4 l
  induction s1, s2, s3, s4, l using goScan.induct with
  | case1 b1 b2 b3 b4 => simp [goScanE1, trimRightST, goExitRel]
  | case2 s1 s2 s3 c rest ih =>
      rw [goScanE2, trimRightST_cons]
      split
      · rename_i hcon
        rw [goScanE1, goExitRel_eq_normal_of_trim_nil _ _ _ _ _ hcon.1]
      · rw [goScanE2, ih]
  | case3 s1 s2 s3 e c rest h1 h2 ih =>
      have he : e = false := Bool.eq_false_iff.mpr h1
      subst he
      have hc : c = '\\' := by
        simp only [Bool.and_eq_true, beq_iff_eq] at h2
        exact h2.1
      rw [goScanE3 _ _ _ _ _ h2, trimRightST_cons,
        if_neg (fun hcon => by rw [hc] at hcon; exact absurd hcon.2 (by decide)),
        goScanE3 _ _ _ _ _ h2, ih]
  | case4 s1 s2 s3 e c rest h1 h2 h3 h4 h5 ih =>
      have he : e = false := Bool.eq_false_iff.mpr h1
      subst he
      have hs2 : s2 = false := by simpa using h4
      subst hs2
      have hb' := Bool.eq_false_iff.mpr h2
      have hmem : '`' ∈ trimRightST (goScan s1 true s3 false rest).1 :=
        mem_trimRightST
          (goScan_rawmode_mem s1 true s3 false rest rfl
            ((idxOfSub_singleton_isSome _ _).mp h5))
          (by decide)
      rw [goScanE4 s1 false s3 c rest hb' h3 rfl h5, trimRightST_cons,
        if_neg (fun hcon => by
          rw [hcon.1] at hmem
          exact absurd hmem (List.not_mem_nil _)),
        goScanE4 s1 false s3 c _ hb' h3 rfl ((idxOfSub_singleton_isSome _ _).mpr hmem),
        ih]
  | case5 s1 s2 s3 e c rest h1 h2 h3 h4 h5 =>
      have he : e = false := Bool.eq_false_iff.mpr h1
      subst he
      have hs2 : s2 = false := by simpa using h4
      subst hs2
      have hb' := Bool.eq_false_iff.mpr h2
      have hc : c = '`' := by
        simp only [Bool.and_eq_true, beq_iff_eq] at h3
        exact h3.1.1
      have hnm : '`' ∉ rest := fun hm =>
        h5 ((idxOfSub_singleton_isSome _ _).mpr hm)
      have hnm2 : (idxOfSub ['`'] (trimRightST rest)).isSome = false := by
        rw [Bool.eq_false_iff]
        intro hs
        exact hnm ((trimRightST_pref rest).subset ((idxOfSub_singleton_isSome _ _).mp hs))
      rw [goScanE5 s1 false s3 c rest hb' h3 rfl (Bool.eq_false_iff.mpr h5),
        trimRightST_cons,
        if_neg (fun hcon => by rw [hc] at hcon; exact absurd hcon.2 (by decide)),
        goScanE5 s1 false s3 c _ hb' h3 rfl hnm2]
      rfl
  | case6 s1 s2 s3 e c rest h1 h2 h3 h4 ih =>
      have he : e = false := Bool.eq_false_iff.mpr h1
      have hr : s2 = true := by
        cases hs : s2
        · exact absurd (by simp [hs]) h4
        · rfl
      subst he
      subst hr
      have hb' := Bool.eq_false_iff.mpr h2
      have hc : c = '`' := by
        simp only [Bool.and_eq_true, beq_iff_eq] at h3
        exact h3.1.1
      rw [goScanE6 s1 true s3 c rest hb' h3 rfl, trimRightST_cons,
        if_neg (fun hcon => by rw [hc] at hcon; exact absurd hcon.2 (by decide)),
        goScanE6 s1 true s3 c _ hb' h3 rfl, ih]
  | case7 s1 s2 s3 e c rest h1 h2 h3 h4 ih =>
      have he : e = false := Bool.eq_false_iff.mpr h1
      subst he
      have hb' := Bool.eq_false_iff.mpr h2
      have ht' := Bool.eq_false_iff.mpr h3
      have hc : c = '\'' := by
        simp only [Bool.and_eq_true, beq_iff_eq] at h4
        exact h4.1.1
      rw [goScanE7 _ _ _ _ _ hb' ht' h4, trimRightST_cons,
        if_neg (fun hcon => by rw [hc] at hcon; exact absurd hcon.2 (by decide)),
        goScanE7 _ _ _ _ _ hb' ht' h4, ih]
  | case8 s1 s2 s3 e c rest h1 h2 h3 h4 h5 ih =>
      have he : e = false := Bool.eq_false_iff.mpr h1
      subst he
      have hb' := Bool.eq_false_iff.mpr h2
      have ht' := Bool.eq_false_iff.mpr h3
      have hq' := Bool.eq_false_iff.mpr h4
      have hc : c = '"' := by
        simp only [Bool.and_eq_true, beq_iff_eq] at h5
        exact h5.1.1
      rw [goScanE8 _ _ _ _ _ hb' ht' hq' h5, trimRightST_cons,
        if_neg (fun hcon => by rw [hc] at hcon; exact absurd hcon.2 (by decide)),
        goScanE8 _ _ _ _ _ hb' ht' hq' h5, ih]
  | case9 s1 s2 s3 e c rest h1 h2 h3 h4 h5 h6 ih =>
      have he : e = false := Bool.eq_false_iff.mpr h1
      subst he
      have hb' := Bool.eq_false_iff.mpr h2
      have ht' := Bool.eq_false_iff.mpr h3
      have hq' := Bool.eq_false_iff.mpr h4
      have hd' := Bool.eq_false_iff.mpr h5
      rw [goScanE9 _ _ _ _ _ hb' ht' hq' hd' h6, trimRightST_cons]
      split
      · rename_i hcon
        rw [goScanE1, goExitRel_eq_normal_of_trim_nil _ _ _ _ _ hcon.1]
      · rw [goScanE9 _ _ _ _ _ hb' ht' hq' hd' h6, ih]
  | case10 s1 s2 s3 e c rest h1 h2 h3 h4 h5 h6 h7 j hj ih =>
      have he : e = false := Bool.eq_false_iff.mpr h1
      subst he
      rw [goScanE10 _ _ _ _ _ (Bool.eq_false_iff.mpr h2) (Bool.eq_false_iff.mpr h3)
        (Bool.eq_false_iff.mpr h4) (Bool.eq_false_iff.mpr h5) (Bool.eq_false_iff.mpr h6)
        h7 j hj]
      exact ih
  | case11 s1 s2 s3 e c rest h1 h2 h3 h4 h5 h6 h7 hj =>
      have he : e = false := Bool.eq_false_iff.mpr h1
      subst he
      rw [goScanE11 _ _ _ _ _ (Bool.eq_false_iff.mpr h2) (Bool.eq_false_iff.mpr h3)
        (Bool.eq_false_iff.mpr h4) (Bool.eq_false_iff.mpr h5) (Bool.eq_false_iff.mpr h6)
        h7 hj]
      simp [goScanE1, trimRightST, goExitRel]
  | case12 s1 s2 s3 e c rest h1 h2 h3 h4 h5 h6 h7 h8 =>
      have he : e = false := Bool.eq_false_iff.mpr h1
      subst he
      rw [goScanE12 _ _ _ _ _ (Bool.eq_false_iff.mpr h2) (Bool.eq_false_iff.mpr h3)
        (Bool.eq_false_iff.mpr h4) (Bool.eq_false_iff.mpr h5) (Bool.eq_false_iff.mpr h6)
        (Bool.eq_false_iff.mpr h7) h8]
      simp [goScanE1, trimRightST, goExitRel]
  | case13 s1 s2 s3 e c rest h1 h2 h3 h4 h5 h6 h7 h8 ih =>
      have he : e = false := Bool.eq_false_iff.mpr h1
      subst he
      have hb' := Bool.eq_false_iff.mpr h2
      have ht' := Bool.eq_false_iff.mpr h3
      have hq' := Bool.eq_false_iff.mpr h4
      have hd' := Bool.eq_false_iff.mpr h5
      have hi' := Bool.eq_false_iff.mpr h6
      have hbc' := Bool.eq_false_iff.mpr h7
      have hlc' := Bool.eq_false_iff.mpr h8
      have hpair :
          (c == '/' && (trimRightST (goScan s1 s2 s3 false rest).1).headD ' ' == '*') = false ∧
          (c == '/' && (trimRightST (goScan s1 s2 s3 false rest).1).headD ' ' == '/') = false := by
        by_cases hcs : (c == '/') = true
        · have hr1 : (rest.headD ' ' == '*') = false := by
            have := hbc'
            rw [hcs, Bool.true_and] at this
            exact this
          have hr2 : (rest.headD ' ' == '/') = false := by
            have := hlc'
            rw [hcs, Bool.true_and] at this
            exact this
          have hhd :
              ((trimRightST (goScan s1 s2 s3 false rest).1).headD ' ' == '*') = false ∧
              ((trimRightST (goScan s1 s2 s3 false rest).1).headD ' ' == '/') = false := by
            cases rest with
            | nil =>
                rw [goScanE1]
                constructor <;> decide
            | cons c2 rest2 =>
                have hc2s : (c2 == '*') = false := by simpa using hr1
                have hc2l : (c2 == '/') = false := by simpa using hr2
                rcases goScan_head s1 s2 s3 false c2 rest2 hc2l with hO | hO
                · rw [hO]
                  constructor <;> decide
                · by_cases htn : trimRightST (goScan s1 s2 s3 false (c2 :: rest2)).1 = []
                  · rw [htn]
                    constructor <;> decide
                  · rw [trimRightST_headD _ _ htn, hO]
                    exact ⟨hc2s, hc2l⟩
          exact ⟨by rw [hcs, Bool.true_and]; exact hhd.1,
                 by rw [hcs, Bool.true_and]; exact hhd.2⟩
        · have hf := Bool.eq_false_iff.mpr hcs
          exact ⟨by rw [hf, Bool.false_and], by rw [hf, Bool.false_and]⟩
      rw [goScanE13 _ _ _ _ _ hb' ht' hq' hd' hi' hbc' hlc', trimRightST_cons]
      split
      · rename_i hcon
        rw [goScanE1, goExitRel_eq_normal_of_trim_nil _ _ _ _ _ hcon.1]
      · rw [goScanE13 _ _ _ _ _ hb' ht' hq' hd' hi' hpair.1 hpair.2, ih]

/-- Cross-line state produced by a Go line scan ending in each exit. -/
def goStateOf : GoExit → Bool × Bool
  | .normal => (false, false)
  | .block => (true, false)
  | .raw => (false, true)

theorem goLineScan_eq (z cl : List Char) (e : GoExit)
    (h : goScan false false false false z = (cl, e)) :
    goLineScan z = (trimRightST cl, false, goStateOf e) := by
  unfold goLineScan
  rw [h]
  cases e <;> rfl

theorem goLineScan_replay (z : List Char) :
    goLineScan (goLineScan z).1 =
      ((goLineScan z).1, false, (false, (goLineScan z).2.2.2)) := by
  cases hz : goScan false false false false z with
  | mk cl e =>
      have h1 := goLineScan_eq z cl e hz
      have hre := goScan_replay false false false false z
      rw [hz] at hre
      have h2 := goLineScan_eq (trimRightST cl) (trimRightST cl) (goExitRel e)
        (by simpa using hre)
      rw [trimRightST_idem] at h2
      rw [h1]
      show goLineScan (trimRightST cl) = (trimRightST cl, false, (false, (goStateOf e).2))
      rw [h2]
      cases e <;> rfl

theorem goLineRest_false (z : List Char) : goLineRest false z = goLineScan z := by
  rw [goLineRest]
  simp

theorem goLineRest_replay (b : Bool) (l : List Char) :
    goLineRest false (goLineRest b l).1 =
      ((goLineRest b l).1, false, (false, (goLineRest b l).2.2.2)) := by
  cases b with
  | false =>
      rw [goLineRest_false l, goLineRest_false (goLineScan l).1]
      exact goLineScan_replay l
  | true =>
      rw [goLineRest_false]
      rw [goLineRest]
      rw [if_pos rfl]
      cases hix : idxOfSub ['*', '/'] l with
      | none =>
          rw [goLineScan_eq [] [] .normal (goScanE1 _ _ _ _)]
          rfl
      | some idx =>
          exact goLineScan_replay _

theorem goLine_false_nil (x : Bool) : goLine (false, x) [] = ([], false, (false, x)) := by
  cases x with
  | false =>
      rw [goLine]
      simp only [Bool.false_eq_true, if_false]
      rw [goLineRest_false]
      unfold goLineScan
      rw [goScanE1]
      rfl
  | true =>
      rw [goLine]
      simp [idxOfSub]

theorem goLine_replay (s : Bool × Bool) (l : List Char) :
    goLine (false, s.2) (goLine s l).1 =
      ((goLine s l).1, false, (false, (goLine s l).2.2.2)) := by
  obtain ⟨b, r⟩ := s
  cases r with
  | false =>
      have h1 : goLine (b, false) l = goLineRest b l := by
        rw [goLine]; simp
      have h2 : ∀ z : List Char, goLine (false, false) z = goLineRest false z := by
        intro z; rw [goLine]; simp
      simp only [Prod.snd]
      rw [h1, h2]
      exact goLineRest_replay b l
  | true =>
      simp only [Prod.snd]
      cases hix : idxOfSub ['`'] l with
      | none =>
          have h1 : goLine (b, true) l = (l, false, (b, true)) := by
            rw [goLine]
            simp [hix]
          rw [h1]
          simp only [Prod.fst, Prod.snd]
          rw [goLine]
          simp [hix]
      | some idx =>
          obtain ⟨hlt, hnm, htk⟩ := idxOfSub_singleton_some '`' l idx hix
          have h1 : goLine (b, true) l =
              (l.take (idx + 1) ++ (goLineRest b (l.drop (idx + 1))).1,
               (goLineRest b (l.drop (idx + 1))).2.1,
               (goLineRest b (l.drop (idx + 1))).2.2) := by
            rw [goLine]
            simp [hix]
          have hlen : (l.take (idx + 1)).length = idx + 1 := by
            rw [List.length_take]
            omega
          have hout : l.take (idx + 1) ++ (goLineRest b (l.drop (idx + 1))).1 =
              l.take idx ++ '`' :: (goLineRest b (l.drop (idx + 1))).1 := by
            rw [htk]
            simp
          have hfind : idxOfSub ['`']
              (l.take (idx + 1) ++ (goLineRest b (l.drop (idx + 1))).1) = some idx := by
            rw [hout, idxOfSub_singleton_append '`' _ _ hnm, List.length_take]
            congr 1
            omega
          rw [h1]
          simp only [Prod.fst, Prod.snd]
          rw [goLine]
          simp only [if_true, hfind]
          have hdrop : (l.take (idx + 1) ++ (goLineRest b (l.drop (idx + 1))).1).drop (idx + 1) =
              (goLineRest b (l.drop (idx + 1))).1 := by
            rw [List.drop_append_of_le_length (by omega), List.drop_eq_nil_of_le (by omega)]
            simp [hlen]
          have htake : (l.take (idx + 1) ++ (goLineRest b (l.drop (idx + 1))).1).take (idx + 1) =
              l.take (idx + 1) := by
            rw [List.take_append_of_le_length (by omega), List.take_of_length_le (by omega)]
          rw [hdrop, htake, goLineRest_replay b (l.drop (idx + 1))]

theorem goLineScan_mem (z : List Char) (a : Char) (h : a ∈ (goLineScan z).1) : a ∈ z := by
  cases hz : goScan false false false false z with
  | mk cl e =>
      rw [goLineScan_eq z cl e hz] at h
      have h2 : a ∈ cl := (trimRightST_pref cl).subset h
      have h3 := goScan_mem false false false false z a
      rw [hz] at h3
      exact h3 h2

theorem goLineRest_mem (b : Bool) (l : List Char) (a : Char)
    (h : a ∈ (goLineRest b l).1) : a ∈ l := by
  cases b with
  | false =>
      rw [goLineRest_false] at h
      exact goLineScan_mem l a h
  | true =>
      rw [goLineRest, if_pos rfl] at h
      cases hix : idxOfSub ['*', '/'] l with
      | none => rw [hix] at h; simp at h
      | some idx =>
          rw [hix] at h
          simp only [] at h
          exact List.drop_subset _ _ (goLineScan_mem _ a h)

theorem goLine_mem (s : Bool × Bool) (l : List Char) (a : Char)
    (h : a ∈ (goLine s l).1) : a ∈ l := by
  obtain ⟨b, r⟩ := s
  cases r with
  | false =>
      have h1 : goLine (b, false) l = goLineRest b l := by rw [goLine]; simp
      rw [h1] at h
      exact goLineRest_mem b l a h
  | true =>
      rw [goLine, if_pos rfl] at h
      cases hix : idxOfSub ['`'] l with
      | none => rw [hix] at h; exact h
      | some idx =>
          rw [hix] at h
          simp only [] at h
          rcases List.mem_append.mp h with h2 | h2
          · exact List.take_subset _ _ h2
          · exact List.drop_subset _ _ (goLineRest_mem _ _ a h2)

/-- Driver-level replay for the Go remover: rescanning the emitted document
(from a state whose block-comment flag is cleared) reproduces it. -/
theorem goDrive_replay : ∀ (ls : List (List Char)) (s : Bool × Bool),
    (∀ p ∈ ls, '\n' ∉ p) →
    driveLines goLine (false, s.2) (splitLines (driveLines goLine s ls)) =
      driveLines goLine s ls := by
  intro ls
  induction ls with
  | nil =>
      intro s hnl
      rw [driveLines]
      show driveLines goLine (false, s.2) (splitLines []) = []
      rw [show splitLines [] = [[]] from rfl, driveLines, goLine_false_nil]
      simp [driveLines]
  | cons line rest ih =>
      intro s hnl
      have hofree : '\n' ∉ (goLine s line).1 := fun hm =>
        hnl line (List.mem_cons_self _ _) (goLine_mem s line '\n' hm)
      cases rest with
      | nil =>
          rw [driveLines]
          simp only [List.isEmpty_nil, if_true]
          cases hnlv : (goLine s line).2.1 with
          | false =>
              simp only [Bool.false_eq_true, if_false]
              rw [driveLines]
              simp only [List.append_nil]
              rw [splitLines_nlFree_eq _ hofree, driveLines]
              rw [goLine_replay s line]
              simp [driveLines, hnlv]
          | true =>
              simp only [if_true]
              rw [driveLines]
              simp only [List.append_nil]
              rw [show (goLine s line).1 ++ ['\n'] = (goLine s line).1 ++ '\n' :: [] from rfl]
              rw [splitLines_append_nl _ _ hofree]
              rw [show splitLines [] = [[]] from rfl]
              rw [driveLines]
              rw [goLine_replay s line]
              simp only [List.isEmpty_cons, Bool.false_eq_true, if_false]
              rw [driveLines, goLine_false_nil]
              simp [driveLines, hnlv]
      | cons l2 rest2 =>
          rw [driveLines]
          simp only [List.isEmpty_cons, Bool.false_eq_true, if_false]
          have hsep : (if (goLine s line).2.1 = true then ['\n'] else (['\n'] : List Char)) =
              ['\n'] := by
            cases (goLine s line).2.1 <;> simp
          rw [hsep]
          rw [show (goLine s line).1 ++ ['\n'] ++
              driveLines goLine (goLine s line).2.2 (l2 :: rest2) =
              (goLine s line).1 ++ '\n' ::
                driveLines goLine (goLine s line).2.2 (l2 :: rest2) by simp]
          rw [splitLines_append_nl _ _ hofree]
          rw [driveLines]
          have hne : (splitLines (driveLines goLine (goLine s line).2.2 (l2 :: rest2))).isEmpty = false := by
            rw [List.isEmpty_eq_false_iff_exists_mem]
            cases hsp : splitLines (driveLines goLine (goLine s line).2.2 (l2 :: rest2)) with
            | nil => exact absurd hsp (splitLines_ne_nil _)
            | cons p ps => exact ⟨p, List.mem_cons_self _ _⟩
          rw [goLine_replay s line]
          simp only [hne, Bool.false_eq_true, if_false]
          rw [ih (goLine s line).2.2 (fun p hp => hnl p (List.mem_cons_of_mem _ hp))]
          simp

theorem removeGoComments_idem (content : List Char) :
    removeGoComments (removeGoComments content) = removeGoComments content := by
  unfold removeGoComments
  exact goDrive_replay (splitLines content) (false, false) (splitLines_nlFree content)

/-! ## Claim theorems -/

/-- C1: string content inviolability fails in the code.  A comment-like token
sequence strictly inside a string is not always preserved: the opening line of
a multi-line JS template literal is dropped entirely (its `cleaned` text is
discarded when `inTemplateLiteralMultiline` is set), so the `//` sequence
inside the literal vanishes; and a Rust raw string whose closing token is on a
later line does not keep cross-line state (the `inRawString` flag is a
per-line local), so the `// b` inside the raw string is deleted as a line
comment.  The theorem evaluates both removers at the failing inputs; the
first is the repository's own test input, whose expected output is the
unchanged document. -/
theorem C1_string_inviolability_code_bug :
    removeJSComments "const str = `// not a comment\n/* still not */`;".toList =
      "\n/* still not */`;".toList ∧
    (idxOfSub "// not a comment".toList
      (removeJSComments "const str = `// not a comment\n/* still not */`;".toList)).isSome
      = false ∧
    removeRustComments "let s = r#\"a\n// b\"#;".toList = "let s = r#\"a\n".toList ∧
    (idxOfSub "// b".toList
      (removeRustComments "let s = r#\"a\n// b\"#;".toList)).isSome = false := by
  have h1 : removeJSComments "const str = `// not a comment\n/* still not */`;".toList =
      "\n/* still not */`;".toList := by
    simp +decide [removeJSComments, driveLines, splitLines, jsLine, jsLineScan, jsScan,
      jsHasTplClose, idxOfSub, leadsWith, trimRightST, isSpaceTab]
  have h2 : removeRustComments "let s = r#\"a\n// b\"#;".toList = "let s = r#\"a\n".toList := by
    simp +decide [removeRustComments, driveLines, splitLines, rustLine, rustLineScan, rustScan,
      rustBlockScan, idxOfSub, leadsWith, trimRightST, isSpaceTab]
  refine ⟨h1, ?_, h2, ?_⟩
  · rw [h1]; decide
  · rw [h2]; decide

/-- C3 counterexample: four of the six removers are not idempotent.  The
Python remover drops the opening line of a multi-line triple-quoted string
and on the second pass treats the dangling `"""` of the surviving close line
as a new opener; the JS remover does the same with template literals; the
Rust remover re-reads the emitted string `"a\"b//x"` (preceded by an `r` once
the comment between them is removed) as a raw string that closes at the
escaped quote, so the `//x` inside it is removed on the second pass; and the
Terraform remover splices a `<` and a `<` together when it removes the block
comment between them, which the second pass reads as a heredoc trigger with
an empty delimiter and silently drops. -/
theorem C3_idempotence_cex :
    (((removePythonCommentsB "s = \"\"\"a\nb\"\"\"".toList).bind removePythonCommentsB) ==
      removePythonCommentsB "s = \"\"\"a\nb\"\"\"".toList) = false ∧
    ((removeJSComments (removeJSComments "a`\nb`".toList)) ==
      removeJSComments "a`\nb`".toList) = false ∧
    ((removeRustComments (removeRustComments "r/*c*/\"a\\\"b//x\"".toList)) ==
      removeRustComments "r/*c*/\"a\\\"b//x\"".toList) = false ∧
    ((removeTerraformComments (removeTerraformComments "</* */< x".toList)) ==
      removeTerraformComments "</* */< x".toList) = false := by
  have hp1 : removePythonCommentsB "s = \"\"\"a\nb\"\"\"".toList = some "\nb\"\"\"".toList := by
    simp +decide [removePythonCommentsB, driveLinesO, pyLineB, pyScanB, idxOfSub, leadsWith,
      splitLines, trimRightST, isSpaceTab, utf8Len, runeLen]
  have hp2 : removePythonCommentsB "\nb\"\"\"".toList = some "\n".toList := by
    simp +decide [removePythonCommentsB, driveLinesO, pyLineB, pyScanB, idxOfSub, leadsWith,
      splitLines, trimRightST, isSpaceTab, utf8Len, runeLen]
  have hj1 : removeJSComments "a`\nb`".toList = "\nb`".toList := by
    simp +decide [removeJSComments, driveLines, splitLines, jsLine, jsLineScan, jsScan,
      jsHasTplClose, idxOfSub, leadsWith, trimRightST, isSpaceTab]
  have hj2 : removeJSComments "\nb`".toList = "\n".toList := by
    simp +decide [removeJSComments, driveLines, splitLines, jsLine, jsLineScan, jsScan,
      jsHasTplClose, idxOfSub, leadsWith, trimRightST, isSpaceTab]
  have hr1 : removeRustComments "r/*c*/\"a\\\"b//x\"".toList = "r\"a\\\"b//x\"".toList := by
    simp +decide [removeRustComments, driveLines, splitLines, rustLine, rustLineScan, rustScan,
      rustBlockScan, idxOfSub, leadsWith, trimRightST, isSpaceTab]
  have hr2 : removeRustComments "r\"a\\\"b//x\"".toList = "r\"a\\\"b".toList := by
    simp +decide [removeRustComments, driveLines, splitLines, rustLine, rustLineScan, rustScan,
      rustBlockScan, idxOfSub, leadsWith, trimRightST, isSpaceTab]
  have ht1 : removeTerraformComments "</* */< x".toList = "<< x".toList := by
    simp +decide [removeTerraformComments, tfScan, tfAfter, tfHeredocIntro, tfHeredocBody,
      tfString, tfSkipBlock, takeLine, trimSpaceGo, isGoSpace, isAlphanumeric, List.dropWhile]
  have ht2 : removeTerraformComments "<< x".toList = " x".toList := by
    simp +decide [removeTerraformComments, tfScan, tfAfter, tfHeredocIntro, tfHeredocBody,
      tfString, tfSkipBlock, takeLine, trimSpaceGo, isGoSpace, isAlphanumeric, List.dropWhile]
  refine ⟨?_, ?_, ?_, ?_⟩
  · rw [hp1]
    simp only [Option.bind]
    rw [hp2]
    decide
  · rw [hj1, hj2]; decide
  · rw [hr1, hr2]; decide
  · rw [ht1, ht2]; decide

/-- C3 amended: `collapseExcessiveNewlines` is idempotent on every text (its
loop runs until the pattern no longer matches, so a second run finds no match
and returns its input unchanged), and so are the YAML and Go removers on
every document: rescanning the cleaned, trimmed output replays the same
transitions, because every removed piece (a comment, or trailing whitespace)
leaves no trace that could scan differently.  The Python, JS, Rust and
Terraform removers are not idempotent (see the counterexample). -/
theorem C3_idempotence_amended :
    (∀ t : List Char,
      collapseExcessiveNewlines (collapseExcessiveNewlines t) = collapseExcessiveNewlines t) ∧
    (∀ d : List Char,
      removeYAMLComments (removeYAMLComments d) = removeYAMLComments d) ∧
    (∀ d : List Char,
      removeGoComments (removeGoComments d) = removeGoComments d) :=
  ⟨collapse_idem, removeYAMLComments_idem, removeGoComments_idem⟩

/-- C4: Rust block comments nest (the depth counter must return to zero), so
`"/* a /* b */ c */\nx"` strips to `"\nx"`; JS block comments do not nest, so
the same document keeps `" c */"` as code, and
`"/* outer /* inner */ tail */"` leaves `" tail */"` behind. -/
theorem C4_block_comment_nesting :
    removeRustComments "/* a /* b */ c */\nx".toList = "\nx".toList ∧
    removeJSComments "/* a /* b */ c */\nx".toList = " c */\nx".toList ∧
    removeJSComments "/* outer /* inner */ tail */".toList = " tail */".toList := by
  refine ⟨?_, ?_, ?_⟩
  · simp +decide [removeRustComments, driveLines, splitLines, rustLine, rustLineScan, rustScan,
      rustBlockScan, idxOfSub, leadsWith, trimRightST, isSpaceTab]
  · simp +decide [removeJSComments, driveLines, splitLines, jsLine, jsLineScan, jsScan,
      jsHasTplClose, idxOfSub, leadsWith, trimRightST, isSpaceTab]
  · simp +decide [removeJSComments, driveLines, splitLines, jsLine, jsLineScan, jsScan,
      jsHasTplClose, idxOfSub, leadsWith, trimRightST, isSpaceTab]

/-- C5: heredoc preservation.  `tfHeredocBody`, the loop `removeTerraformComments`
runs after reading a `<<`/`<<-` trigger and a nonempty identifier delimiter,
emits its input verbatim (emitted text plus remaining input reassemble the
input exactly), stops after the first line whose `TrimSpace` equals the
delimiter, and never scans the body for comments or strings; the two
end-to-end evaluations reproduce the repository's heredoc tests, with `#`,
`//` and `/*` inside the body left untouched. -/
theorem C5_heredoc_preservation :
    (∀ (delim l : List Char),
      (tfHeredocBody delim l).1 ++ (tfHeredocBody delim l).2 = l) ∧
    (∀ (pre : List (List Char)) (term : List Char) (post : List (List Char)),
      post ≠ [] →
      (∀ p ∈ pre, '\n' ∉ p ∧ (trimSpaceGo p == "EOF".toList) = false) →
      '\n' ∉ term → (trimSpaceGo term == "EOF".toList) = true →
      tfHeredocBody "EOF".toList (joinLines (pre ++ term :: post)) =
        (joinLines (pre ++ [term]) ++ ['\n'], joinLines post)) ∧
    removeTerraformComments
        "user_data = <<EOF\n#!/bin/bash\n# keep /* this */ too\necho hi\nEOF".toList =
      "user_data = <<EOF\n#!/bin/bash\n# keep /* this */ too\necho hi\nEOF".toList ∧
    removeTerraformComments "u = <<-EOF\n  # keep // x\n  EOF".toList =
      "u = <<-EOF\n  # keep // x\n  EOF".toList := by
  refine ⟨tfHeredocBody_append, tfHeredocBody_lines "EOF".toList, ?_, ?_⟩
  · simp +decide [removeTerraformComments, tfScan, tfAfter, tfHeredocIntro, tfHeredocBody,
      tfString, tfSkipBlock, takeLine, trimSpaceGo, isGoSpace, isAlphanumeric, List.dropWhile]
  · simp +decide [removeTerraformComments, tfScan, tfAfter, tfHeredocIntro, tfHeredocBody,
      tfString, tfSkipBlock, takeLine, trimSpaceGo, isGoSpace, isAlphanumeric, List.dropWhile]

theorem C5_heredoc_preservation_witness :
    (([[]] : List (List Char)) ≠ []) ∧
    (∀ p ∈ ["echo hi".toList], '\n' ∉ p ∧ (trimSpaceGo p == "EOF".toList) = false) ∧
    '\n' ∉ "EOF".toList ∧ (trimSpaceGo "EOF".toList == "EOF".toList) = true ∧
    tfHeredocBody "EOF".toList (joinLines (["echo hi".toList] ++ "EOF".toList :: [[]])) =
      (joinLines (["echo hi".toList] ++ ["EOF".toList]) ++ ['\n'], joinLines [[]]) :=
  ⟨by decide, by decide, by decide, by decide,
    C5_heredoc_preservation.2.1 ["echo hi".toList] "EOF".toList [[]]
      (by decide) (by decide) (by decide) (by decide)⟩

/-- C6 counterexample: after a Python triple-quoted string closes on a later
line, the scanner does not resume scanning the remainder of the closing line:
the whole line is emitted verbatim, so the trailing `# c` after the closing
`"""` survives in the output (and the opening line is dropped, per the
separate entry-line defect). -/
theorem C6_resumption_cex :
    removePythonCommentsB "s = \"\"\"a\nb\"\"\" # c".toList = some "\nb\"\"\" # c".toList := by
  simp +decide [removePythonCommentsB, driveLinesO, pyLineB, pyScanB, idxOfSub, leadsWith,
    splitLines, trimRightST, isSpaceTab, utf8Len, runeLen]

/-- C6 amended: resumption after a multi-line string closes holds for Go but
not for Python.  On every line containing a backtick, the Go remover in the
raw-string continuation state emits the prefix up to and including the first
backtick verbatim and the remainder is the `Normal`-state scan of the rest of
the line (comments removed, trailing whitespace trimmed) — so the trailing
`// c` of the concrete document is removed; the Python per-line step in the
multiline state returns every line unchanged no matter where the closing
delimiter sits. -/
theorem C6_resumption_amended :
    (∀ (delim line : List Char),
      pyLineB (some delim) line =
        some (line, false, if (idxOfSub delim line).isSome then none else some delim)) ∧
    (∀ (line : List Char) (idx : Nat), idxOfSub ['`'] line = some idx →
      (goLine (false, true) line).1 =
        line.take (idx + 1) ++
          trimRightST (goScan false false false false (line.drop (idx + 1))).1) ∧
    removeGoComments "s := `a\nb` // c".toList = "s := `a\nb`".toList := by
  refine ⟨fun delim line => rfl, ?_, ?_⟩
  · intro line idx hix
    rw [goLine, if_pos rfl, hix]
    simp only []
    rw [goLineRest_false]
    cases hz : goScan false false false false (line.drop (idx + 1)) with
    | mk cl e =>
        rw [goLineScan_eq _ cl e hz]
  · simp +decide [removeGoComments, driveLines, splitLines, goLine, goLineRest, goLineScan,
      goScan, idxOfSub, leadsWith, trimRightST, isSpaceTab, utf8Len, runeLen]

theorem C6_resumption_amended_witness :
    (goLine (false, true) "b` // c".toList).1 =
      "b` // c".toList.take 2 ++
        trimRightST (goScan false false false false ("b` // c".toList.drop 2)).1 :=
  C6_resumption_amended.2.1 "b` // c".toList 1 (by decide)

/-- C7: escape correctness, for every backslash-escape scanner of the source
and for the doubled-delimiter case.  In the JS, Go, Python, Rust and
Terraform removers a backslash-escaped quote does not terminate the string,
so the comment-like text inside survives while the genuine trailing comment
after the string's true close is removed (Terraform keeps the space before
its removed `# real`, since it never trims); in the YAML remover the same
holds for a backslash-escaped double quote, and in a single-quoted string two
consecutive quote characters do not close it. -/
theorem C7_escape_correctness :
    removeJSComments "const s = \"He said \\\"hi\\\" // x\"; // real".toList =
      "const s = \"He said \\\"hi\\\" // x\";".toList ∧
    removeYAMLComments "m: \"He said \\\"hi\\\" # x\" # real".toList =
      "m: \"He said \\\"hi\\\" # x\"".toList ∧
    removeYAMLComments
        ("m: ".toList ++ Char.ofNat 39 :: "It".toList ++ Char.ofNat 39 :: Char.ofNat 39 ::
          "s // x".toList ++ Char.ofNat 39 :: " # real".toList) =
      ("m: ".toList ++ Char.ofNat 39 :: "It".toList ++ Char.ofNat 39 :: Char.ofNat 39 ::
        "s // x".toList ++ [Char.ofNat 39]) ∧
    removeGoComments "s := \"He said \\\"hi\\\" // x\" // real".toList =
      "s := \"He said \\\"hi\\\" // x\"".toList ∧
    removePythonCommentsB "s = \"He said \\\"hi\\\" # x\"  # real".toList =
      some "s = \"He said \\\"hi\\\" # x\"".toList ∧
    removeRustComments "let s = \"He said \\\"hi\\\" // x\"; // real".toList =
      "let s = \"He said \\\"hi\\\" // x\";".toList ∧
    removeTerraformComments "a = \"He said \\\"hi\\\" # x\" # real".toList =
      "a = \"He said \\\"hi\\\" # x\" ".toList := by
  refine ⟨?_, ?_, ?_, ?_, ?_, ?_, ?_⟩
  · simp +decide [removeJSComments, driveLines, splitLines, jsLine, jsLineScan, jsScan,
      jsHasTplClose, idxOfSub, leadsWith, trimRightST, isSpaceTab]
  · simp +decide [removeYAMLComments, driveLines, splitLines, yamlScan, trimRightST, isSpaceTab]
  · simp +decide [removeYAMLComments, driveLines, splitLines, yamlScan, trimRightST, isSpaceTab]
  · simp +decide [removeGoComments, driveLines, splitLines, goLine, goLineRest, goLineScan,
      goScan, idxOfSub, leadsWith, trimRightST, isSpaceTab, utf8Len, runeLen]
  · simp +decide [removePythonCommentsB, driveLinesO, pyLineB, pyScanB, idxOfSub, leadsWith,
      splitLines, trimRightST, isSpaceTab, utf8Len, runeLen]
  · simp +decide [removeRustComments, driveLines, splitLines, rustLine, rustLineScan, rustScan,
      rustBlockScan, idxOfSub, leadsWith, trimRightST, isSpaceTab]
  · simp +decide [removeTerraformComments, tfScan, tfAfter, tfHeredocIntro, tfHeredocBody,
      tfString, tfSkipBlock, takeLine, trimSpaceGo, isGoSpace, isAlphanumeric, List.dropWhile]

/-- C8 counterexample: the Terraform remover does not trim the whitespace
left in front of a removed trailing comment — the cleaned line ends in the
two spaces that preceded the `#`. -/
theorem C8_trailing_ws_cex :
    removeTerraformComments "a = 1  # c".toList = "a = 1  ".toList ∧
    endsClean (removeTerraformComments "a = 1  # c".toList) = false := by
  have h : removeTerraformComments "a = 1  # c".toList = "a = 1  ".toList := by
    simp +decide [removeTerraformComments, tfScan, tfAfter, tfHeredocIntro, tfHeredocBody,
      tfString, tfSkipBlock, takeLine, trimSpaceGo, isGoSpace, isAlphanumeric, List.dropWhile]
  refine ⟨h, ?_⟩
  rw [h]; decide

/-- C8 amended: the five line-based removers trim trailing space/tab from every
line they scan in `Normal` context (the Go/JS/Python/Rust per-line steps from
the initial state, and every output line of the YAML remover); the Terraform
remover, which is not line-based, leaves the whitespace preceding a removed
comment in place. -/
theorem C8_trailing_ws_amended :
    (∀ line : List Char, endsClean ((goLine (false, false) line).1) = true) ∧
    (∀ line : List Char, endsClean ((jsLine (false, false) line).1) = true) ∧
    (∀ line : List Char, endsClean ((pyLine none line).1) = true) ∧
    (∀ line : List Char, endsClean ((rustLine (false, 0) line).1) = true) ∧
    (∀ content : List Char,
      (splitLines (removeYAMLComments content)).all endsClean = true) :=
  ⟨goLine_normal_clean, jsLine_normal_clean, pyLine_normal_clean, rustLine_normal_clean,
    removeYAMLComments_linesClean⟩

/-- C9: the newline normalizer reaches a fixed point.  Its output never
contains a newline followed by one or more whitespace characters followed by
a newline (the spec-side scanner `hasBlankSep` finds no occurrence), and the
concrete example collapses as the specification states.  Termination is part
of the definition: the replace-all loop strictly shrinks its text. -/
theorem C9_normalizer_fixed_point :
    (∀ l : List Char, hasBlankSep (collapseExcessiveNewlines l) = false) ∧
    collapseExcessiveNewlines "a\n\n\n\nb".toList = "a\nb".toList := by
  refine ⟨collapse_hasBlankSep_false, ?_⟩
  simp +decide [collapseExcessiveNewlines, reHasMatch, reReplaceAll, matchLenAt, lastNlAux,
    isRegexWs]

/-- C10: extension dispatch.  `processFile`'s switch yields an
`ErrUnsupportedFileType` exactly when the extension is not one of the eleven
supported ones; in `run` that error means the file is skipped (non-fatal);
and each supported extension is routed to its language remover. -/
theorem C10_extension_dispatch :
    (∀ (ext : String) (content : List Char), ext ∉ supportedExtensions →
      runStep (processFileDispatch ext content) = .skippedUnsupported) ∧
    (∀ (ext : String) (content : List Char),
      (processFileDispatch ext content).isOk = true ↔ ext ∈ supportedExtensions) ∧
    (∀ content : List Char,
      processFileDispatch ".js" content = .ok (removeJSComments content) ∧
      processFileDispatch ".ts" content = .ok (removeJSComments content) ∧
      processFileDispatch ".jsx" content = .ok (removeJSComments content) ∧
      processFileDispatch ".tsx" content = .ok (removeJSComments content) ∧
      processFileDispatch ".go" content = .ok (removeGoComments content) ∧
      processFileDispatch ".py" content = .ok (removePythonComments content) ∧
      processFileDispatch ".rs" content = .ok (removeRustComments content) ∧
      processFileDispatch ".tf" content = .ok (removeTerraformComments content) ∧
      processFileDispatch ".tfvars" content = .ok (removeTerraformComments content) ∧
      processFileDispatch ".yaml" content = .ok (removeYAMLComments content) ∧
      processFileDispatch ".yml" content = .ok (removeYAMLComments content)) := by
  have hiff : ∀ (ext : String) (content : List Char),
      (processFileDispatch ext content).isOk = true ↔ ext ∈ supportedExtensions := by
    intro ext content
    unfold processFileDispatch
    split_ifs with h1 h2 h3 h4 h5 h6
    all_goals simp only [Except.isOk, supportedExtensions, List.mem_cons,
      List.not_mem_nil, or_false]
    all_goals constructor
    all_goals intro hx
    all_goals tauto
  refine ⟨?_, hiff, ?_⟩
  · intro ext content hmem
    cases hres : processFileDispatch ext content with
    | ok t =>
        have : (processFileDispatch ext content).isOk = true := by
          rw [hres]; rfl
        exact absurd ((hiff ext content).mp this) hmem
    | error e => rw [runStep]
  · intro content
    refine ⟨?_, ?_, ?_, ?_, ?_, ?_, ?_, ?_, ?_, ?_, ?_⟩
    all_goals rfl

theorem C10_extension_dispatch_witness :
    (".md" ∉ supportedExtensions) ∧
    runStep (processFileDispatch ".md" "x = 1".toList) = .skippedUnsupported :=
  ⟨by decide, C10_extension_dispatch.1 ".md" "x = 1".toList (by decide)⟩

